import Mathlib

/-!
FluidDB (fluidinfo/FFM): a shallow embedding of `FluidDB.cpp`.

The library targets Arduino boards (it includes `Ethernet.h` and
`EthernetDNS.h`), so the embedding follows avr-gcc: `char` is a signed 8-bit
type and `int` is a 16-bit two's complement type.

Memory is modelled as lists of bytes (`Nat` values `0..255`).  A C string
argument is the list of bytes found at the pointer; reading at or past the end
of the list yields the terminating NUL, and a NUL inside the list ends the
string early, exactly as it does for the C code.  A store `buf[k] = v` is
`List.set`.
-/

namespace FluidDB

/-! ## Machine arithmetic -/

/-- Two's complement bit pattern of an `int` (16 bits). -/
def toU16 (x : Int) : Nat := (x % 65536).toNat

/-- The `int` denoted by a 16-bit pattern. -/
def ofU16 (n : Nat) : Int :=
  if n % 65536 < 32768 then ((n % 65536 : Nat) : Int) else ((n % 65536 : Nat) : Int) - 65536

/-- Bitwise and on `int`: `x & y`. -/
def band (x y : Int) : Int := ofU16 (toU16 x &&& toU16 y)

/-- Bitwise or on `int`: `x | y`. -/
def bor (x y : Int) : Int := ofU16 (toU16 x ||| toU16 y)

/-- Left shift on `int`: `x << k`. -/
def shl (x : Int) (k : Nat) : Int := ofU16 (toU16 x <<< k)

/-- Arithmetic right shift on `int`: `x >> k`. -/
def shr (x : Int) (k : Nat) : Int := x / ((2 ^ k : Nat) : Int)

/-- Value of a stored byte read as a (signed) `char`. -/
def sext8 (b : Nat) : Int :=
  if b % 256 < 128 then ((b % 256 : Nat) : Int) else ((b % 256 : Nat) : Int) - 256

/-- Conversion of an `int` to `char`. -/
def toChar (x : Int) : Int := sext8 (x % 256).toNat

/-- The byte stored for a `char` value. -/
def byteOf (c : Int) : Nat := (c % 256).toNat

/-- ASCII codes of a string literal. -/
def ascii (s : String) : List Nat := s.toList.map Char.toNat

/-- Read of `p[i]` through a `const char*`: bytes past the end of the list are
the terminating NUL. -/
def readChar (mem : List Nat) (i : Nat) : Int := sext8 (mem.getD i 0)

/-- The C string stored at the start of `mem`: the bytes before the first NUL. -/
def cstr (mem : List Nat) : List Nat := mem.takeWhile (fun b => b != 0)

/-! ## Credential encoder (`mime_code`, `mimeEncode`) -/

/-- Embedding of `FluidDB::mime_code` (FluidDB.cpp:159-178). -/
def mime_code (c : Int) : Int :=
  if c < 26 then toChar (c + 65)
  else if c < 52 then toChar (c - 26 + 97)
  else if c < 62 then toChar (c - 52 + 48)
  else if c = 62 then 43
  else 47

/-- Locals of `mimeEncode` that change in the loop: the indices `i`, `j` and
the destination memory `out`. -/
structure MimeState where
  i : Nat
  j : Nat
  out : List Nat
deriving DecidableEq, Repr

/-- One iteration of the `while` body of `mimeEncode` (FluidDB.cpp:189-195). -/
def mimeGroup (inp : List Nat) (s : MimeState) : MimeState :=
  let c0 := readChar inp s.i
  let i1 := s.i + 1
  let c1 := if readChar inp i1 ≠ 0 then readChar inp i1 else 0
  let i2 := if readChar inp i1 ≠ 0 then i1 + 1 else i1
  let c2 := if readChar inp i2 ≠ 0 then readChar inp i2 else 0
  let i3 := if readChar inp i2 ≠ 0 then i2 + 1 else i2
  let o0 := s.out.set s.j (byteOf (mime_code (toChar (shr c0 2))))
  let o1 := o0.set (s.j + 1) (byteOf (mime_code (toChar (bor (band (shl c0 4) 0x30) (shr c1 4)))))
  let o2 := o1.set (s.j + 2)
    (byteOf (if c1 ≠ 0 then mime_code (toChar (bor (band (shl c1 2) 0x3c) (shr c2 6))) else 61))
  let o3 := o2.set (s.j + 3) (byteOf (if c2 ≠ 0 then mime_code (toChar (band c2 0x3f)) else 61))
  { i := i3, j := s.j + 4, out := o3 }

/-- The `while (j < 64 && in[i])` loop of `mimeEncode`.  Every iteration adds 4
to `j`, so 16 units of fuel are never used up (`mimeLoop_fuel`). -/
def mimeLoop : Nat → List Nat → MimeState → MimeState
  | 0, _, s => s
  | fuel + 1, inp, s =>
    if s.j < 64 ∧ readChar inp s.i ≠ 0 then mimeLoop fuel inp (mimeGroup inp s) else s

/-- Result of `mimeEncode`: the returned flag, the destination memory, and the
final values of the indices `i` (input bytes consumed) and `j` (where the
terminating NUL was stored). -/
structure MimeResult where
  ret : Bool
  out : List Nat
  i : Nat
  j : Nat
deriving DecidableEq, Repr

/-- Embedding of `FluidDB::mimeEncode` (FluidDB.cpp:183-203). -/
def mimeEncode (inp out : List Nat) : MimeResult :=
  let s := mimeLoop 16 inp { i := 0, j := 0, out := out }
  { ret := decide (s.j < 64), out := s.out.set s.j 0, i := s.i, j := s.j }

/-! ## Reference Base64 (RFC 4648), written from the specification -/

/-- The 64-symbol alphabet `A-Z a-z 0-9 + /`. -/
def b64Alphabet : List Nat :=
  ascii "ABCDEFGHIJKLMNOPQRSTUVWXYZabcdefghijklmnopqrstuvwxyz0123456789+/"

/-- The symbol of a 6-bit value. -/
def b64char (v : Nat) : Nat := b64Alphabet.getD v 0

/-- The 6-bit value of a symbol, if it is one. -/
def b64val (ch : Nat) : Option Nat :=
  if ch ∈ b64Alphabet then some (b64Alphabet.indexOf ch) else none

/-- Reference encoder: every 3 bytes give 4 symbols; a last group of 1 or 2
bytes is zero-extended and padded with `=` (code 61). -/
def base64Encode : List Nat → List Nat
  | [] => []
  | [a] => [b64char (a / 4), b64char (a % 4 * 16), 61, 61]
  | [a, b] => [b64char (a / 4), b64char (a % 4 * 16 + b / 16), b64char (b % 16 * 4), 61]
  | a :: b :: c :: rest =>
    b64char (a / 4) :: b64char (a % 4 * 16 + b / 16) :: b64char (b % 16 * 4 + c / 64)
      :: b64char (c % 64) :: base64Encode rest

/-- Decoding of a final group `x y = =`. -/
def decodePad2 (x y : Nat) : Option (List Nat) :=
  match b64val x, b64val y with
  | some v0, some v1 => if v1 % 16 = 0 then some [v0 * 4 + v1 / 16] else none
  | _, _ => none

/-- Decoding of a final group `x y z =`. -/
def decodePad1 (x y z : Nat) : Option (List Nat) :=
  match b64val x, b64val y, b64val z with
  | some v0, some v1, some v2 =>
    if v2 % 4 = 0 then some [v0 * 4 + v1 / 16, v1 % 16 * 16 + v2 / 4] else none
  | _, _, _ => none

/-- Decoding of a full group of four symbols. -/
def decodeFull (x y z w : Nat) : Option (List Nat) :=
  match b64val x, b64val y, b64val z, b64val w with
  | some v0, some v1, some v2, some v3 =>
    some [v0 * 4 + v1 / 16, v1 % 16 * 16 + v2 / 4, v2 % 4 * 64 + v3]
  | _, _, _, _ => none

/-- Reference (strict) decoder: the text is a sequence of groups of four
symbols; only the last group may carry `=` padding; anything else is rejected. -/
def base64Decode : List Nat → Option (List Nat)
  | [] => some []
  | x :: y :: z :: w :: rest =>
    if rest = [] ∧ w = 61 then
      (if z = 61 then decodePad2 x y else decodePad1 x y z)
    else
      match decodeFull x y z w, base64Decode rest with
      | some g, some t => some (g ++ t)
      | _, _ => none
  | _ => none

/-! ## Client state (`FluidDB.h`) -/

/-- The enumeration `FluidDB::Status` (FluidDB.h:17-23). -/
inductive Status where
  | NoServerIp
  | NoLogin
  | Failure
  | Success
deriving DecidableEq, Repr

/-- The data members of a `FluidDB` object (FluidDB.h:35-39); the `socket`
member is represented by the `Net` argument of `call`. -/
structure State where
  server : List Nat
  server_ip : List Nat
  login_details : List Nat
  current_status : Status
deriving DecidableEq, Repr

/-- The constant `FluidDB::MAIN`. -/
def MAIN : List Nat := ascii "fluiddb.fluidinfo.com"

/-- The constant `FluidDB::SANDBOX`. -/
def SANDBOX : List Nat := ascii "sandbox.fluidinfo.com"

/-- The constant `FluidDB::SIMPLE_DATA`. -/
def SIMPLE_DATA : List Nat := ascii "application/vnd.fluiddb.value+json"

/-- The constructor `FluidDB::FluidDB` (FluidDB.cpp:13-20): `server_ip()` and
`login_details()` are value-initialised, hence zero-filled. -/
def init : State :=
  { server := MAIN
    server_ip := List.replicate 4 0
    login_details := List.replicate 64 0
    current_status := Status.NoServerIp }

/-- Embedding of `FluidDB::setServer(const char*)` (FluidDB.cpp:22-33).  The
resolver `EthernetDNS.resolveHostName` is a parameter: `none` is a DNS error,
`some ip` is `DNSSuccess` with `ip` stored through its second argument.  The
name handed to the resolver is the member `server`, as in the source. -/
def setServerName (resolve : List Nat → Option (List Nat)) (st : State) (_server : List Nat) :
    Bool × State :=
  match resolve st.server with
  | some ip => (true, { st with server_ip := ip, current_status := Status.NoLogin })
  | none => (false, st)

/-- Embedding of `FluidDB::setServer(const uint8_t*)` (FluidDB.cpp:35-40):
`memcpy` of `sizeof(server_ip) = 4` bytes. -/
def setServerIp (st : State) (_ip : List Nat) : Bool × State :=
  (true, { st with
    server_ip := (List.range 4).map (fun k => _ip.getD k 0)
    current_status := Status.NoLogin })

/-! ## `login` -/

/-- The call `snprintf(buf, size, "%s:%s", user, pass)`: the returned count is
the length of the whole formatted text, and `buf` receives at most `size - 1`
of its bytes followed by a NUL.  (The count is an `int`; strings too long for
it do not fit the memory of the target.) -/
def snprintf_login (size : Nat) (user pass : List Nat) : Nat × List Nat :=
  let text := cstr user ++ 58 :: cstr pass
  (text.length, text.take (size - 1) ++ [0])

/-- Embedding of `FluidDB::login` (FluidDB.cpp:138-153).  The second component
of `snprintf_login` is the defined part of the local `login_input[40]`. -/
def login (st : State) (user pass : List Nat) : Bool × State :=
  let sn := snprintf_login 40 user pass
  let login_input := sn.2
  if sn.1 < 40 then
    let enc := mimeEncode login_input st.login_details
    if enc.ret then
      (true, { st with login_details := enc.out, current_status := Status.Success })
    else
      (false, { st with login_details := enc.out })
  else
    (false, st)

/-! ## C library functions used by `call` -/

/-- The call `strncmp(s1, s2, n)`: bytes are compared as `unsigned char`, the
comparison stops at the first difference, at a NUL, or after `n` bytes. -/
def strncmp : List Nat → List Nat → Nat → Int
  | _, _, 0 => 0
  | s1, s2, n + 1 =>
    if s1.headD 0 ≠ s2.headD 0 then (s1.headD 0 : Int) - (s2.headD 0 : Int)
    else if s1.headD 0 = 0 then 0
    else strncmp s1.tail s2.tail n

/-- The predicate `isspace` of the C locale. -/
def isspace (c : Nat) : Bool := c == 32 || (9 ≤ c && c ≤ 13)

/-- The predicate `isdigit`. -/
def isdigit (c : Nat) : Bool := 48 ≤ c && c ≤ 57

/-- Value of a run of decimal digits. -/
def digitsValue (ds : List Nat) : Nat := ds.foldl (fun acc d => acc * 10 + (d - 48)) 0

/-- Conversion of a mathematical integer to `int` (16 bits, wrapping). -/
def toInt (x : Int) : Int := ofU16 (toU16 x)

/-- The value returned by `sscanf` for an input failure. -/
def EOF : Int := -1

/-- The call `sscanf(s, "%d", &ret)`: the pair of the returned count and the
value of `ret` afterwards.  Leading white space is skipped; at the end of the
string the result is `EOF`; an optional sign and a non-empty run of digits are
converted and stored (count 1); anything else is a matching failure (count 0). -/
def sscanf_d (s : List Nat) (ret : Int) : Int × Int :=
  match (cstr s).dropWhile isspace with
  | [] => (EOF, ret)
  | c :: cs =>
    let neg := c == 45
    let body := if c == 45 || c == 43 then cs else c :: cs
    let ds := body.takeWhile isdigit
    if ds = [] then (0, ret)
    else (1, toInt (if neg then -(digitsValue ds : Int) else (digitsValue ds : Int)))

/-- Bytes stored by `strncpy(dst, src, n)` at `dst[0..n)`: the string at `src`,
cut at `n` bytes, NUL-padded up to `n` bytes. -/
def strncpyBytes (src : List Nat) (n : Nat) : List Nat :=
  (cstr src ++ List.replicate n 0).take n

/-- Memory at `dst` after `strncpy(dst, src, n)`. -/
def strncpy (dst src : List Nat) (n : Nat) : List Nat :=
  strncpyBytes src n ++ dst.drop n

/-! ## `call` -/

/-- The literal `"HTTP/1.0"`. -/
def HTTP_1_0 : List Nat := ascii "HTTP/1.0"

/-- The end of line written by `println`. -/
def CRLF : List Nat := [13, 10]

/-- The constant `RESPONSE_BUFFER_SIZE`. -/
def RESPONSE_BUFFER_SIZE : Nat := 100

/-- The behaviour of the `socket` member during one `call`: whether `connect`
succeeds, and the bytes the peer delivers before it disconnects. -/
structure Net where
  connects : Bool
  incoming : List Nat
deriving DecidableEq, Repr

/-- Bytes written by `socket.print(p)` for a `const char*`: the C string at `p`.
What `Print::print` does with a null pointer is not part of this repository;
the `none` case (nothing printed) is a placeholder that no statement about the
request relies on. -/
def printStr (p : Option (List Nat)) : List Nat :=
  match p with
  | some m => cstr m
  | none => []

/-- Bytes written by `socket.println(n)` for an unsigned number, without the
end of line. -/
def printNum (n : Nat) : List Nat := (Nat.toDigits 10 n).map Char.toNat

/-- The bytes `call` writes to the connection (FluidDB.cpp:52-78). -/
def request (st : State) (method uri : List Nat) (mime payload : Option (List Nat)) : List Nat :=
  cstr method ++ ascii " " ++ cstr uri ++ (ascii " HTTP/1.0" ++ CRLF)
  ++ ascii "Authorization: Basic " ++ (cstr st.login_details ++ CRLF)
  ++ (match payload with
      | some p =>
        ascii "Content-Type: " ++ (printStr mime ++ CRLF)
        ++ ascii "Content-Length: " ++ (printNum (cstr p).length ++ CRLF)
      | none => [])
  ++ CRLF
  ++ (match payload with
      | some p => cstr p
      | none => [])

/-- Locals of the receive loop of `call`: `resp_buffer`, `idx`, `ret`,
`buffer_full`; `nread` counts the calls of `socket.read()` and `writes` records
the indices of `resp_buffer` stored to (latest first). -/
structure ScanState where
  resp_buffer : List Nat
  idx : Nat
  ret : Int
  buffer_full : Bool
  nread : Nat
  writes : List Nat
deriving DecidableEq, Repr

/-- The status-line test made after a line feed (FluidDB.cpp:110-117): the new
value of `ret`. -/
def statusUpdate (resp_buffer : List Nat) (ret : Int) : Int :=
  if strncmp resp_buffer HTTP_1_0 8 = 0 then
    (if (sscanf_d (resp_buffer.drop 9) ret).1 = 0 then 0 else (sscanf_d (resp_buffer.drop 9) ret).2)
  else ret

/-- One iteration of the receive loop with a byte available (FluidDB.cpp:97-118). -/
def scanStep (s : ScanState) (b : Nat) : ScanState :=
  let buf := s.resp_buffer.set s.idx b
  let idx := s.idx + 1
  if idx ≥ RESPONSE_BUFFER_SIZE then
    { s with resp_buffer := buf, idx := idx, buffer_full := true, nread := s.nread + 1
             writes := s.idx :: s.writes }
  else if buf.getD (idx - 1) 0 = 10 then
    let buf0 := buf.set idx 0
    { resp_buffer := buf0, idx := 0, ret := statusUpdate buf0 s.ret, buffer_full := false
      nread := s.nread + 1, writes := idx :: s.idx :: s.writes }
  else
    { s with resp_buffer := buf, idx := idx, nread := s.nread + 1, writes := s.idx :: s.writes }

/-- The loop `while (socket.connected() && !buffer_full)` over the bytes the
peer delivers before disconnecting; iterations with nothing available change
nothing and are left out. -/
def scanLoop (s : ScanState) : List Nat → ScanState
  | [] => s
  | b :: bs => if s.buffer_full then s else scanLoop (scanStep s b) bs

/-- The uninitialised array `resp_buffer[RESPONSE_BUFFER_SIZE]`: 100 bytes of
whatever the stack holds. -/
def freshBuffer (stack : List Nat) : List Nat :=
  (stack ++ List.replicate RESPONSE_BUFFER_SIZE 0).take RESPONSE_BUFFER_SIZE

/-- State of the locals when the receive loop is entered (FluidDB.cpp:81-84). -/
def scanInit (stack : List Nat) : ScanState :=
  { resp_buffer := freshBuffer stack, idx := 0, ret := 0, buffer_full := false
    nread := 0, writes := [] }

/-- The receive loop followed by `resp_buffer[idx] = 0` (FluidDB.cpp:93-123).
After an overflow `idx` is `RESPONSE_BUFFER_SIZE` and this store is one past
the array: `writes` records the index, the list is left as it is, and what the
C program does from then on is undefined. -/
def scanResponse (stack incoming : List Nat) : ScanState :=
  let s := scanLoop (scanInit stack) incoming
  { s with resp_buffer := s.resp_buffer.set s.idx 0, writes := s.idx :: s.writes }

/-- What a `call` leaves behind: the returned `int`, the bytes written to the
connection, the memory at `response` (`none` for a null pointer), the number of
bytes stored there, and the final state of the receive loop (`none` when the
loop was not reached). -/
structure CallResult where
  ret : Int
  sent : List Nat
  response : Option (List Nat)
  stored : Nat
  scan : Option ScanState
deriving DecidableEq, Repr

/-- Embedding of `FluidDB::call` (FluidDB.cpp:43-136).  `stack` is the initial
content of the uninitialised `resp_buffer`.  On the overflow path the result
shown (`-1`, output untouched) is what the statements after line 123 say; it
comes after the store past the end of `resp_buffer` (see `scanResponse`), so
the C program is only bound by it when that store is harmless. -/
def call (st : State) (net : Net) (stack : List Nat) (method uri : List Nat)
    (mime payload : Option (List Nat)) (response : Option (List Nat)) (response_size : Nat) :
    CallResult :=
  if !net.connects then
    { ret := 0, sent := [], response := response, stored := 0, scan := none }
  else
    let sent := request st method uri mime payload
    let s := scanResponse stack net.incoming
    if s.buffer_full then
      { ret := -1, sent := sent, response := response, stored := 0, scan := some s }
    else
      match response with
      | some dst =>
        if response_size > 0 then
          { ret := s.ret, sent := sent, response := some (strncpy dst s.resp_buffer response_size)
            stored := response_size, scan := some s }
        else
          { ret := s.ret, sent := sent, response := some dst, stored := 0, scan := some s }
      | none => { ret := s.ret, sent := sent, response := none, stored := 0, scan := some s }

/-! ## Vocabulary for statements about responses -/

/-- The complete lines of a response, each with its line feed, when `cur` holds
the bytes already received since the last line feed. -/
def linesFrom (cur : List Nat) : List Nat → List (List Nat)
  | [] => []
  | b :: bs => if b = 10 then (cur ++ [b]) :: linesFrom [] bs else linesFrom (cur ++ [b]) bs

/-- The bytes after the last line feed of a response. -/
def fragmentFrom (cur : List Nat) : List Nat → List Nat
  | [] => cur
  | b :: bs => if b = 10 then fragmentFrom [] bs else fragmentFrom (cur ++ [b]) bs

/-- The complete (LF-terminated) lines of a response. -/
def completeLines (resp : List Nat) : List (List Nat) := linesFrom [] resp

/-- The trailing fragment of a response: what follows its last line feed. -/
def lastFragment (resp : List Nat) : List Nat := fragmentFrom [] resp

/-- No line reaches the capacity of the scan buffer, when `cur` holds the bytes
already received since the last line feed: every complete line (line feed
included) and the trailing fragment are shorter than `RESPONSE_BUFFER_SIZE`. -/
def fitsFrom (cur resp : List Nat) : Prop :=
  (∀ l ∈ linesFrom cur resp, l.length < RESPONSE_BUFFER_SIZE) ∧
    (fragmentFrom cur resp).length < RESPONSE_BUFFER_SIZE

instance (cur resp : List Nat) : Decidable (fitsFrom cur resp) := by
  unfold fitsFrom
  infer_instance

/-- No line of the response reaches the capacity of the scan buffer. -/
def fitsBuffer (resp : List Nat) : Prop := fitsFrom [] resp

instance (resp : List Nat) : Decidable (fitsBuffer resp) := by
  unfold fitsBuffer
  infer_instance

/-- Effect on `ret` of a complete line `l` (line feed included), stored in the
scan buffer as a C string. -/
def lineStatus (ret : Int) (l : List Nat) : Int := statusUpdate (l ++ [0]) ret

/-! ## Status order, operations and reachable states -/

/-- Position of a status in `enum Status` (FluidDB.h:17-23). -/
def Status.rank : Status → Nat
  | Status.NoServerIp => 0
  | Status.NoLogin => 1
  | Status.Failure => 2
  | Status.Success => 3

/-- A public operation of the client (FluidDB.h:27-32) with its arguments; for
`call` these include the behaviour of the connection and the content of the
stack. -/
inductive Op where
  | setServerIp (_ip : List Nat)
  | setServerName (_server : List Nat)
  | login (user pass : List Nat)
  | call (net : Net) (stack method uri : List Nat) (mime payload response : Option (List Nat))
      (response_size : Nat)

/-- The data members after an operation.  `call` assigns none of them
(FluidDB.cpp:43-136 only uses `socket` and reads `login_details`). -/
def applyOp (resolve : List Nat → Option (List Nat)) (st : State) : Op → State
  | Op.setServerIp ip => (setServerIp st ip).2
  | Op.setServerName h => (setServerName resolve st h).2
  | Op.login user pass => (login st user pass).2
  | Op.call _ _ _ _ _ _ _ _ => st

/-- The client states that public operations can produce from a fresh object. -/
inductive Reachable (resolve : List Nat → Option (List Nat)) : State → Prop where
  | fresh : Reachable resolve init
  | step (st : State) (op : Op) : Reachable resolve st → Reachable resolve (applyOp resolve st op)

/-! ## Stores made by `mimeEncode` and `login` -/

/-- Indices of `out` stored to by the loop of `mimeEncode`, in order: each
iteration stores at `j`, `j + 1`, `j + 2`, `j + 3` (FluidDB.cpp:192-195). -/
def mimeLoopWrites : Nat → List Nat → MimeState → List Nat
  | 0, _, _ => []
  | fuel + 1, inp, s =>
    if s.j < 64 ∧ readChar inp s.i ≠ 0 then
      [s.j, s.j + 1, s.j + 2, s.j + 3] ++ mimeLoopWrites fuel inp (mimeGroup inp s)
    else []

/-- Indices of `out` stored to by `mimeEncode`: those of the loop, then the
final `j` for `out[j] = 0` (FluidDB.cpp:201). -/
def mimeEncodeWrites (inp out : List Nat) : List Nat :=
  mimeLoopWrites 16 inp { i := 0, j := 0, out := out }
    ++ [(mimeLoop 16 inp { i := 0, j := 0, out := out }).j]

/-- Indices of `login_details` stored to by `login`: those of `mimeEncode` when
it is called, none otherwise. -/
def loginWrites (st : State) (user pass : List Nat) : List Nat :=
  if (snprintf_login 40 user pass).1 < 40 then
    mimeEncodeWrites (snprintf_login 40 user pass).2 st.login_details
  else []

/-! ## The request and the status text, in the words of the specification -/

/-- Decimal text of a number. -/
def decimal (n : Nat) : List Nat := ascii (Nat.repr n)

/-- The request as the specification words it: request line, `Authorization`
header, then `Content-Type` and `Content-Length` only with a payload, the
blank line, and the payload bytes if any.  `body` is the pair of the MIME type
and the payload. -/
def wireFormat (method uri credentials : List Nat) (body : Option (List Nat × List Nat)) :
    List Nat :=
  method ++ ascii " " ++ uri ++ ascii " HTTP/1.0\r\n"
  ++ ascii "Authorization: Basic " ++ credentials ++ ascii "\r\n"
  ++ (match body with
      | some (mime, payload) =>
        ascii "Content-Type: " ++ mime ++ ascii "\r\n"
        ++ ascii "Content-Length: " ++ decimal payload.length ++ ascii "\r\n"
      | none => [])
  ++ ascii "\r\n"
  ++ (match body with
      | some (_, payload) => payload
      | none => [])

/-- The largest `int`. -/
def INT_MAX : Int := 32767

/-- The smallest `int`. -/
def INT_MIN : Int := -32768

/-- The decimal integer written in line `l` at offset 9, if there is one: an
optional `-` and a non-empty run of digits. -/
def decimalAt9 (l : List Nat) : Option Int :=
  match l.drop 9 with
  | [] => none
  | c :: cs =>
    if c = 45 then
      (if cs.takeWhile isdigit = [] then none
       else some (-(digitsValue (cs.takeWhile isdigit) : Int)))
    else
      (if (c :: cs).takeWhile isdigit = [] then none
       else some (digitsValue ((c :: cs).takeWhile isdigit) : Int))

/-- A resolver that knows the two well-known hosts of the library. -/
def twoHostResolver (h : List Nat) : Option (List Nat) :=
  if h = MAIN then some [1, 2, 3, 4] else if h = SANDBOX then some [5, 6, 7, 8] else none

/-- A resolver that only knows `MAIN`. -/
def mainOnlyResolver (h : List Nat) : Option (List Nat) :=
  if h = MAIN then some [1, 2, 3, 4] else none

/-! ## The symbols produced by `mime_code` on 7-bit input -/

set_option maxRecDepth 100000 in
theorem code0 (a : Nat) (ha : a < 128) :
    byteOf (mime_code (toChar (shr (sext8 a) 2))) = b64char (a / 4) := by
  have h : ∀ x : Fin 128,
      byteOf (mime_code (toChar (shr (sext8 x.val) 2))) = b64char (x.val / 4) := by decide
  exact h ⟨a, ha⟩

set_option maxRecDepth 100000 in
theorem code3 (c : Nat) (hc : c < 128) :
    byteOf (mime_code (toChar (band (sext8 c) 0x3f))) = b64char (c % 64) := by
  have h : ∀ x : Fin 128,
      byteOf (mime_code (toChar (band (sext8 x.val) 0x3f))) = b64char (x.val % 64) := by decide
  exact h ⟨c, hc⟩

set_option maxRecDepth 100000 in
theorem code1 (a b : Nat) (ha : a < 128) (hb : b < 128) :
    byteOf (mime_code (toChar (bor (band (shl (sext8 a) 4) 0x30) (shr (sext8 b) 4))))
      = b64char (a % 4 * 16 + b / 16) := by
  have h1 : ∀ x : Fin 128, band (shl (sext8 x.val) 4) 0x30 = ((x.val % 4 : Nat) : Int) * 16 := by
    decide
  have h2 : ∀ x : Fin 128, shr (sext8 x.val) 4 = ((x.val / 16 : Nat) : Int) := by decide
  have h3 : ∀ x : Fin 4, ∀ y : Fin 8,
      byteOf (mime_code (toChar (bor (((x.val : Nat) : Int) * 16) ((y.val : Nat) : Int))))
        = b64char (x.val * 16 + y.val) := by decide
  have e1 := h1 ⟨a, ha⟩
  have e2 := h2 ⟨b, hb⟩
  have e3 := h3 ⟨a % 4, Nat.mod_lt _ (by decide)⟩ ⟨b / 16, by omega⟩
  simp only at e1 e2 e3
  rw [e1, e2, e3]

set_option maxRecDepth 100000 in
theorem code2 (b c : Nat) (hb : b < 128) (hc : c < 128) :
    byteOf (mime_code (toChar (bor (band (shl (sext8 b) 2) 0x3c) (shr (sext8 c) 6))))
      = b64char (b % 16 * 4 + c / 64) := by
  have h1 : ∀ x : Fin 128, band (shl (sext8 x.val) 2) 0x3c = ((x.val % 16 : Nat) : Int) * 4 := by
    decide
  have h2 : ∀ x : Fin 128, shr (sext8 x.val) 6 = ((x.val / 64 : Nat) : Int) := by decide
  have h3 : ∀ x : Fin 16, ∀ y : Fin 2,
      byteOf (mime_code (toChar (bor (((x.val : Nat) : Int) * 4) ((y.val : Nat) : Int))))
        = b64char (x.val * 4 + y.val) := by decide
  have e1 := h1 ⟨b, hb⟩
  have e2 := h2 ⟨c, hc⟩
  have e3 := h3 ⟨b % 16, Nat.mod_lt _ (by decide)⟩ ⟨c / 64, by omega⟩
  simp only at e1 e2 e3
  rw [e1, e2, e3]

/-! ## The encoder loop on 7-bit input -/

theorem sext8_small (a : Nat) (h : a < 128) : sext8 a = (a : Int) := by
  unfold sext8
  have e : a % 256 = a := Nat.mod_eq_of_lt (by omega)
  simp [e, h]

theorem getD_of_drop_cons (inp : List Nat) (i a : Nat) (r : List Nat)
    (h : inp.drop i = a :: r) : inp.getD i 0 = a ∧ inp.drop (i + 1) = r := by
  induction inp generalizing i with
  | nil => simp at h
  | cons x xs ih =>
    cases i with
    | zero => simp at h; simp [h]
    | succ k => simpa using ih k (by simpa using h)

theorem getD_of_drop_nil (inp : List Nat) (i : Nat) (h : inp.drop i = []) :
    inp.getD i 0 = 0 := by
  have hl : inp.length ≤ i := by simpa using h
  simp [List.getElem?_eq_none hl]

theorem set_append_at (acc t : List Nat) (k v : Nat) :
    (acc ++ t).set (acc.length + k) v = acc ++ t.set k v := by
  induction acc with
  | nil => simp
  | cons x xs ih =>
    have e : (x :: xs).length + k = (xs.length + k) + 1 := by simp; omega
    rw [e]
    simp [ih]

theorem mimeGroup_three (inp : List Nat) (i a b c : Nat) (r acc t : List Nat) (t0 t1 t2 t3 : Nat)
    (hd : inp.drop i = a :: b :: c :: r)
    (ha : 1 ≤ a ∧ a < 128) (hb : 1 ≤ b ∧ b < 128) (hc : 1 ≤ c ∧ c < 128) :
    mimeGroup inp { i := i, j := acc.length, out := acc ++ t0 :: t1 :: t2 :: t3 :: t }
      = { i := i + 3, j := acc.length + 4,
          out := acc ++ b64char (a / 4) :: b64char (a % 4 * 16 + b / 16)
            :: b64char (b % 16 * 4 + c / 64) :: b64char (c % 64) :: t } := by
  obtain ⟨e0, hd1⟩ := getD_of_drop_cons inp i a _ hd
  obtain ⟨e1, hd2⟩ := getD_of_drop_cons inp (i + 1) b _ hd1
  obtain ⟨e2, _⟩ := getD_of_drop_cons inp (i + 2) c _ hd2
  have nb : sext8 b ≠ 0 := by rw [sext8_small b hb.2]; omega
  have nc : sext8 c ≠ 0 := by rw [sext8_small c hc.2]; omega
  have s0 := set_append_at acc (t0 :: t1 :: t2 :: t3 :: t) 0
  simp only [Nat.add_zero] at s0
  simp only [mimeGroup, readChar, e0, e1, e2, nb, nc, ne_eq, not_false_eq_true, if_true,
    code0 a ha.2, code1 a b ha.2 hb.2, code2 b c hb.2 hc.2, code3 c hc.2,
    s0, set_append_at, List.set_cons_zero, List.set_cons_succ]

theorem mimeGroup_two (inp : List Nat) (i a b : Nat) (acc t : List Nat) (t0 t1 t2 t3 : Nat)
    (hd : inp.drop i = [a, b]) (ha : 1 ≤ a ∧ a < 128) (hb : 1 ≤ b ∧ b < 128) :
    mimeGroup inp { i := i, j := acc.length, out := acc ++ t0 :: t1 :: t2 :: t3 :: t }
      = { i := i + 2, j := acc.length + 4,
          out := acc ++ b64char (a / 4) :: b64char (a % 4 * 16 + b / 16)
            :: b64char (b % 16 * 4) :: 61 :: t } := by
  obtain ⟨e0, hd1⟩ := getD_of_drop_cons inp i a _ hd
  obtain ⟨e1, hd2⟩ := getD_of_drop_cons inp (i + 1) b _ hd1
  have e2 := getD_of_drop_nil inp (i + 2) hd2
  have nb : sext8 b ≠ 0 := by rw [sext8_small b hb.2]; omega
  have z : sext8 0 = 0 := by decide
  have s0 := set_append_at acc (t0 :: t1 :: t2 :: t3 :: t) 0
  have c2 := code2 b 0 hb.2 (by decide)
  have b61 : byteOf 61 = 61 := by decide
  simp only [Nat.add_zero, z, Nat.zero_div] at s0 c2
  simp only [mimeGroup, readChar, e0, e1, e2, nb, z, ne_eq, not_false_eq_true, if_true,
    not_true_eq_false, if_false, code0 a ha.2, code1 a b ha.2 hb.2, c2, b61,
    s0, set_append_at, List.set_cons_zero, List.set_cons_succ]

theorem mimeGroup_one (inp : List Nat) (i a : Nat) (acc t : List Nat) (t0 t1 t2 t3 : Nat)
    (hd : inp.drop i = [a]) (ha : 1 ≤ a ∧ a < 128) :
    mimeGroup inp { i := i, j := acc.length, out := acc ++ t0 :: t1 :: t2 :: t3 :: t }
      = { i := i + 1, j := acc.length + 4,
          out := acc ++ b64char (a / 4) :: b64char (a % 4 * 16) :: 61 :: 61 :: t } := by
  obtain ⟨e0, hd1⟩ := getD_of_drop_cons inp i a _ hd
  have e1 := getD_of_drop_nil inp (i + 1) hd1
  have z : sext8 0 = 0 := by decide
  have s0 := set_append_at acc (t0 :: t1 :: t2 :: t3 :: t) 0
  have c1 := code1 a 0 ha.2 (by decide)
  have b61 : byteOf 61 = 61 := by decide
  simp only [Nat.add_zero, z, Nat.zero_div] at s0 c1
  simp only [mimeGroup, readChar, e0, e1, z, ne_eq, not_false_eq_true, if_true,
    not_true_eq_false, if_false, code0 a ha.2, c1, b61,
    s0, set_append_at, List.set_cons_zero, List.set_cons_succ]

theorem mimeLoop_done (fuel : Nat) (inp : List Nat) (s : MimeState)
    (h : inp.drop s.i = []) : mimeLoop fuel inp s = s := by
  cases fuel with
  | zero => rfl
  | succ n =>
    have e := getD_of_drop_nil inp s.i h
    have z : sext8 0 = 0 := by decide
    rw [mimeLoop]
    simp only [readChar, e, z]
    simp

/-- The loop of `mimeEncode` on 7-bit input `r` found at index `i`: with
enough fuel and room below the cap, it appends the reference encoding of `r`
to what was already written. -/
theorem mimeLoop_reference (fuel : Nat) : ∀ (inp : List Nat) (i : Nat) (r acc t : List Nat),
    inp.drop i = r → (∀ b ∈ r, 1 ≤ b ∧ b < 128) → (r.length + 2) / 3 ≤ fuel →
    acc.length + 4 * ((r.length + 2) / 3) ≤ 64 → 4 * ((r.length + 2) / 3) ≤ t.length →
    mimeLoop fuel inp { i := i, j := acc.length, out := acc ++ t }
      = { i := i + r.length, j := acc.length + 4 * ((r.length + 2) / 3),
          out := (acc ++ base64Encode r) ++ t.drop (4 * ((r.length + 2) / 3)) } := by
  induction fuel with
  | zero =>
    intro inp i r acc t hd _ hf _ _
    have hr : r = [] := by
      cases r with
      | nil => rfl
      | cons x xs => simp at hf; omega
    subst hr
    simp [mimeLoop, base64Encode]
  | succ n ih =>
    intro inp i r acc t hd h7 hf hj ht
    match r, hd, h7, hf, hj, ht with
    | [], hd, _, _, _, _ =>
      rw [mimeLoop_done _ _ _ (by simpa using hd)]
      simp [base64Encode]
    | [a], hd, h7, _, hj, ht =>
      have ha := h7 a (by simp)
      simp only [List.length_singleton] at hj ht
      obtain ⟨t0, t1, t2, t3, t', rfl⟩ : ∃ t0 t1 t2 t3 t', t = t0 :: t1 :: t2 :: t3 :: t' := by
        match t, ht with
        | t0 :: t1 :: t2 :: t3 :: t', _ => exact ⟨t0, t1, t2, t3, t', rfl⟩
      obtain ⟨e0, hd1⟩ := getD_of_drop_cons inp i a _ hd
      have na : sext8 a ≠ 0 := by rw [sext8_small a ha.2]; omega
      have hlt : acc.length < 64 := by omega
      rw [mimeLoop]
      simp only [readChar, e0, na, hlt, ne_eq, not_false_eq_true, and_self, if_true]
      rw [mimeGroup_one inp i a acc t' t0 t1 t2 t3 hd ha]
      rw [mimeLoop_done _ _ _ (by simpa using hd1)]
      simp [base64Encode]
    | [a, b], hd, h7, _, hj, ht =>
      have ha := h7 a (by simp)
      have hb := h7 b (by simp)
      simp only [List.length_cons, List.length_singleton] at hj ht
      obtain ⟨t0, t1, t2, t3, t', rfl⟩ : ∃ t0 t1 t2 t3 t', t = t0 :: t1 :: t2 :: t3 :: t' := by
        match t, ht with
        | t0 :: t1 :: t2 :: t3 :: t', _ => exact ⟨t0, t1, t2, t3, t', rfl⟩
      obtain ⟨e0, hd1⟩ := getD_of_drop_cons inp i a _ hd
      obtain ⟨_, hd2⟩ := getD_of_drop_cons inp (i + 1) b _ hd1
      have na : sext8 a ≠ 0 := by rw [sext8_small a ha.2]; omega
      have hlt : acc.length < 64 := by omega
      rw [mimeLoop]
      simp only [readChar, e0, na, hlt, ne_eq, not_false_eq_true, and_self, if_true]
      rw [mimeGroup_two inp i a b acc t' t0 t1 t2 t3 hd ha hb]
      rw [mimeLoop_done _ _ _ (by simpa using hd2)]
      simp [base64Encode]
    | a :: b :: c :: r', hd, h7, hf, hj, ht =>
      have ha := h7 a (by simp)
      have hb := h7 b (by simp)
      have hc := h7 c (by simp)
      have hlen : ((a :: b :: c :: r').length + 2) / 3 = (r'.length + 2) / 3 + 1 := by
        simp only [List.length_cons]; omega
      rw [hlen] at hf hj ht
      obtain ⟨t0, t1, t2, t3, t', rfl⟩ : ∃ t0 t1 t2 t3 t', t = t0 :: t1 :: t2 :: t3 :: t' := by
        match t, ht with
        | t0 :: t1 :: t2 :: t3 :: t', _ => exact ⟨t0, t1, t2, t3, t', rfl⟩
      obtain ⟨e0, hd1⟩ := getD_of_drop_cons inp i a _ hd
      obtain ⟨_, hd2⟩ := getD_of_drop_cons inp (i + 1) b _ hd1
      obtain ⟨_, hd3⟩ := getD_of_drop_cons inp (i + 2) c _ hd2
      have na : sext8 a ≠ 0 := by rw [sext8_small a ha.2]; omega
      have hlt : acc.length < 64 := by omega
      rw [mimeLoop]
      simp only [readChar, e0, na, hlt, ne_eq, not_false_eq_true, and_self, if_true]
      rw [mimeGroup_three inp i a b c r' acc t' t0 t1 t2 t3 hd ha hb hc]
      have hacc : acc.length + 4 = (acc ++ [b64char (a / 4), b64char (a % 4 * 16 + b / 16),
          b64char (b % 16 * 4 + c / 64), b64char (c % 64)]).length := by simp
      have hout : acc ++ b64char (a / 4) :: b64char (a % 4 * 16 + b / 16)
          :: b64char (b % 16 * 4 + c / 64) :: b64char (c % 64) :: t'
          = (acc ++ [b64char (a / 4), b64char (a % 4 * 16 + b / 16),
              b64char (b % 16 * 4 + c / 64), b64char (c % 64)]) ++ t' := by simp
      rw [hacc, hout]
      rw [ih inp (i + 3) r' _ t' hd3 (fun x hx => h7 x (by simp [hx])) (by omega)
        (by simp; omega) (by simp at ht; omega)]
      simp only [hlen, List.length_cons, base64Encode, List.length_append, List.length_nil,
        MimeState.mk.injEq]
      refine ⟨by omega, by omega, ?_⟩
      have hdrop : 4 * ((r'.length + 1 + 1 + 1 + 2) / 3) = 4 * ((r'.length + 2) / 3) + 4 := by
        omega
      rw [hdrop]
      simp

/-! ## The reference encoder and decoder -/

theorem base64Encode_length : ∀ s : List Nat, (base64Encode s).length = 4 * ((s.length + 2) / 3)
  | [] => by simp [base64Encode]
  | [_] => by simp [base64Encode]
  | [_, _] => by simp [base64Encode]
  | _ :: _ :: _ :: rest => by
    simp only [base64Encode, List.length_cons, base64Encode_length rest]
    omega

set_option maxRecDepth 100000 in
theorem b64val_char (v : Nat) (h : v < 64) : b64val (b64char v) = some v := by
  have t : ∀ x : Fin 64, b64val (b64char x.val) = some x.val := by decide
  exact t ⟨v, h⟩

set_option maxRecDepth 100000 in
theorem b64char_ne_pad (v : Nat) (h : v < 64) : b64char v ≠ 61 := by
  have t : ∀ x : Fin 64, b64char x.val ≠ 61 := by decide
  exact t ⟨v, h⟩

set_option maxRecDepth 100000 in
theorem b64char_mem (v : Nat) (h : v < 64) : b64char v ∈ b64Alphabet := by
  have t : ∀ x : Fin 64, b64char x.val ∈ b64Alphabet := by decide
  exact t ⟨v, h⟩

/-- The reference decoder inverts the reference encoder on byte strings. -/
theorem base64Decode_encode : ∀ s : List Nat, (∀ b ∈ s, b < 256) →
    base64Decode (base64Encode s) = some s
  | [], _ => by simp [base64Encode, base64Decode]
  | [a], h => by
    have ha : a < 256 := h a (by simp)
    have e0 := b64val_char (a / 4) (by omega)
    have e1 := b64val_char (a % 4 * 16) (by omega)
    simp only [base64Encode, base64Decode, decodePad2, e0, e1, and_self, if_true]
    have m : a % 4 * 16 % 16 = 0 := by omega
    have v : a / 4 * 4 + a % 4 * 16 / 16 = a := by omega
    rw [if_pos m, v]
  | [a, b], h => by
    have ha : a < 256 := h a (by simp)
    have hb : b < 256 := h b (by simp)
    have e0 := b64val_char (a / 4) (by omega)
    have e1 := b64val_char (a % 4 * 16 + b / 16) (by omega)
    have e2 := b64val_char (b % 16 * 4) (by omega)
    have n2 := b64char_ne_pad (b % 16 * 4) (by omega)
    simp only [base64Encode, base64Decode, decodePad1, e0, e1, e2, n2, and_self, if_true,
      if_false]
    have m : b % 16 * 4 % 4 = 0 := by omega
    have v0 : a / 4 * 4 + (a % 4 * 16 + b / 16) / 16 = a := by omega
    have v1 : (a % 4 * 16 + b / 16) % 16 * 16 + b % 16 * 4 / 4 = b := by omega
    rw [if_pos m, v0, v1]
  | a :: b :: c :: rest, h => by
    have ha : a < 256 := h a (by simp)
    have hb : b < 256 := h b (by simp)
    have hc : c < 256 := h c (by simp)
    have e0 := b64val_char (a / 4) (by omega)
    have e1 := b64val_char (a % 4 * 16 + b / 16) (by omega)
    have e2 := b64val_char (b % 16 * 4 + c / 64) (by omega)
    have e3 := b64val_char (c % 64) (by omega)
    have n3 := b64char_ne_pad (c % 64) (by omega)
    have ih := base64Decode_encode rest (fun x hx => h x (by simp [hx]))
    simp only [base64Encode, base64Decode, decodeFull, e0, e1, e2, e3, n3, and_false, if_false,
      ih]
    have v0 : a / 4 * 4 + (a % 4 * 16 + b / 16) / 16 = a := by omega
    have v1 : (a % 4 * 16 + b / 16) % 16 * 16 + (b % 16 * 4 + c / 64) / 4 = b := by omega
    have v2 : (b % 16 * 4 + c / 64) % 4 * 64 + c % 64 = c := by omega
    simp [v0, v1, v2]

/-- Every character of a reference encoding is an alphabet symbol or `=`. -/
theorem base64Encode_chars : ∀ s : List Nat, (∀ b ∈ s, b < 256) →
    ∀ ch ∈ base64Encode s, ch ∈ b64Alphabet ∨ ch = 61
  | [], _ => by simp [base64Encode]
  | [a], h => by
    have ha : a < 256 := h a (by simp)
    intro ch hch
    simp only [base64Encode, List.mem_cons, List.mem_singleton, List.mem_nil_iff, or_false] at hch
    rcases hch with rfl | rfl | rfl | rfl
    · exact Or.inl (b64char_mem _ (by omega))
    · exact Or.inl (b64char_mem _ (by omega))
    · exact Or.inr rfl
    · exact Or.inr rfl
  | [a, b], h => by
    have ha : a < 256 := h a (by simp)
    have hb : b < 256 := h b (by simp)
    intro ch hch
    simp only [base64Encode, List.mem_cons, List.mem_singleton, List.mem_nil_iff, or_false] at hch
    rcases hch with rfl | rfl | rfl | rfl
    · exact Or.inl (b64char_mem _ (by omega))
    · exact Or.inl (b64char_mem _ (by omega))
    · exact Or.inl (b64char_mem _ (by omega))
    · exact Or.inr rfl
  | a :: b :: c :: rest, h => by
    have ha : a < 256 := h a (by simp)
    have hb : b < 256 := h b (by simp)
    have hc : c < 256 := h c (by simp)
    intro ch hch
    simp only [base64Encode, List.mem_cons] at hch
    rcases hch with rfl | rfl | rfl | rfl | hr
    · exact Or.inl (b64char_mem _ (by omega))
    · exact Or.inl (b64char_mem _ (by omega))
    · exact Or.inl (b64char_mem _ (by omega))
    · exact Or.inl (b64char_mem _ (by omega))
    · exact base64Encode_chars rest (fun x hx => h x (by simp [hx])) ch hr

/-- A reference encoding contains `=` exactly when the last group is short. -/
theorem base64Encode_pad : ∀ s : List Nat, (∀ b ∈ s, b < 256) →
    (61 ∈ base64Encode s ↔ s.length % 3 ≠ 0)
  | [], _ => by simp [base64Encode]
  | [a], _ => by simp [base64Encode]
  | [a, b], _ => by simp [base64Encode]
  | a :: b :: c :: rest, h => by
    have ha : a < 256 := h a (by simp)
    have hb : b < 256 := h b (by simp)
    have hc : c < 256 := h c (by simp)
    have n0 := (b64char_ne_pad (a / 4) (by omega)).symm
    have n1 := (b64char_ne_pad (a % 4 * 16 + b / 16) (by omega)).symm
    have n2 := (b64char_ne_pad (b % 16 * 4 + c / 64) (by omega)).symm
    have n3 := (b64char_ne_pad (c % 64) (by omega)).symm
    have ih := base64Encode_pad rest (fun x hx => h x (by simp [hx]))
    simp only [base64Encode, List.mem_cons, n0, n1, n2, n3, false_or, ih, List.length_cons]
    omega

/-! ## Closed form of `mimeEncode` on 7-bit input -/

theorem set_zero_drop (l : List Nat) (n v : Nat) (h : n < l.length) :
    (l.drop n).set 0 v = v :: l.drop (n + 1) := by
  rw [List.drop_eq_getElem_cons h, List.set_cons_zero]

/-- On a string of at most 48 bytes, all in `1..127`, `mimeEncode` stores the
reference encoding and a NUL, leaves the rest of the destination alone, and
returns `true` exactly when the text is shorter than 64 characters. -/
theorem mimeEncode_seven_bit (inp out : List Nat) (h7 : ∀ b ∈ inp, 1 ≤ b ∧ b < 128)
    (hl : inp.length ≤ 48) (hcap : 4 * ((inp.length + 2) / 3) < out.length) :
    mimeEncode inp out
      = { ret := decide (inp.length ≤ 45)
          out := base64Encode inp ++ 0 :: out.drop (4 * ((inp.length + 2) / 3) + 1)
          i := inp.length
          j := 4 * ((inp.length + 2) / 3) } := by
  have key := mimeLoop_reference 16 inp 0 inp [] out rfl h7 (by omega) (by simp; omega)
    (by omega)
  simp only [List.length_nil, List.nil_append, Nat.zero_add] at key
  unfold mimeEncode
  simp only [key]
  have hs : (base64Encode inp ++ List.drop (4 * ((inp.length + 2) / 3)) out).set
      (4 * ((inp.length + 2) / 3)) 0
      = base64Encode inp ++ 0 :: out.drop (4 * ((inp.length + 2) / 3) + 1) := by
    have e := set_append_at (base64Encode inp) (List.drop (4 * ((inp.length + 2) / 3)) out) 0 0
    simp only [base64Encode_length, Nat.add_zero] at e
    rw [e, set_zero_drop out _ 0 hcap]
  rw [hs]
  have hd : decide (4 * ((inp.length + 2) / 3) < 64) = decide (inp.length ≤ 45) := by
    apply decide_eq_decide.mpr
    omega
  rw [hd]

/-! ## Fuel and the 48-byte window of `mimeEncode` -/

theorem mimeGroup_j (inp : List Nat) (s : MimeState) : (mimeGroup inp s).j = s.j + 4 := rfl

/-- Sixteen units of fuel are never exhausted: once `64 ≤ j + 4 * fuel`, more
fuel does not change the result of the loop. -/
theorem mimeLoop_fuel (fuel extra : Nat) : ∀ (inp : List Nat) (s : MimeState),
    64 ≤ s.j + 4 * fuel → mimeLoop (fuel + extra) inp s = mimeLoop fuel inp s := by
  induction fuel with
  | zero =>
    intro inp s h
    cases extra with
    | zero => rfl
    | succ e =>
      have hj : ¬ s.j < 64 := by omega
      simp [mimeLoop, hj]
  | succ n ih =>
    intro inp s h
    have e : n + 1 + extra = (n + extra) + 1 := by omega
    rw [e, mimeLoop, mimeLoop]
    by_cases hc : s.j < 64 ∧ readChar inp s.i ≠ 0
    · rw [if_pos hc, if_pos hc]
      exact ih inp (mimeGroup inp s) (by rw [mimeGroup_j]; omega)
    · rw [if_neg hc, if_neg hc]

theorem mimeGroup_i_le (inp : List Nat) (s : MimeState) : (mimeGroup inp s).i ≤ s.i + 3 := by
  simp only [mimeGroup]
  split_ifs <;> omega

theorem mimeGroup_congr (inp inp' : List Nat) (s : MimeState)
    (h : ∀ k, k < s.i + 3 → inp.getD k 0 = inp'.getD k 0) :
    mimeGroup inp s = mimeGroup inp' s := by
  have e0 : readChar inp s.i = readChar inp' s.i := by
    simp only [readChar, h s.i (by omega)]
  have e1 : readChar inp (s.i + 1) = readChar inp' (s.i + 1) := by
    simp only [readChar, h (s.i + 1) (by omega)]
  have e2 : readChar inp (s.i + 1 + 1) = readChar inp' (s.i + 1 + 1) := by
    simp only [readChar, h (s.i + 1 + 1) (by omega)]
  by_cases h1 : readChar inp' (s.i + 1) = 0
  · simp only [mimeGroup, e0, e1, h1, ne_eq, not_true_eq_false, if_false]
  · simp only [mimeGroup, e0, e1, e2, h1, ne_eq, not_false_eq_true, if_true]

/-- The loop reads at most three bytes per unit of fuel. -/
theorem mimeLoop_congr (fuel : Nat) : ∀ (inp inp' : List Nat) (s : MimeState),
    (∀ k, k < s.i + 3 * fuel → inp.getD k 0 = inp'.getD k 0) →
    mimeLoop fuel inp s = mimeLoop fuel inp' s := by
  induction fuel with
  | zero => intro inp inp' s _; rfl
  | succ n ih =>
    intro inp inp' s h
    have e0 : readChar inp s.i = readChar inp' s.i := by
      simp only [readChar, h s.i (by omega)]
    have eg := mimeGroup_congr inp inp' s (fun k hk => h k (by omega))
    rw [mimeLoop, mimeLoop, e0, eg]
    split
    · exact ih inp inp' _ (fun k hk => h k (by
        have := mimeGroup_i_le inp' s
        omega))
    · rfl

/-- Only the first 48 bytes of the input matter to `mimeEncode`. -/
theorem mimeEncode_take (inp out : List Nat) :
    mimeEncode inp out = mimeEncode (inp.take 48) out := by
  have key := mimeLoop_congr 16 inp (inp.take 48) { i := 0, j := 0, out := out } (by
    intro k hk
    simp only [Nat.zero_add] at hk
    simp only [List.getD_eq_getElem?_getD, List.getElem?_take, if_pos (show k < 48 by omega)])
  simp only [mimeEncode, key]

/-! ## C strings -/

theorem cstr_append_nul (a r : List Nat) (h : ∀ x ∈ a, x ≠ 0) : cstr (a ++ 0 :: r) = a := by
  induction a with
  | nil => simp [cstr]
  | cons x xs ih =>
    have hx : x ≠ 0 := h x (by simp)
    have := ih (fun y hy => h y (by simp [hy]))
    simp only [cstr] at this
    simp [cstr, hx, this]

theorem cstr_ne_zero (l : List Nat) : ∀ x ∈ cstr l, x ≠ 0 := by
  intro x hx
  have := List.mem_takeWhile_imp hx
  simpa using this

theorem cstr_prefix (l : List Nat) : cstr l <+: l := List.takeWhile_prefix _

/-- The first bytes of a long enough C string: they are the first bytes of the
memory that holds it and none is NUL. -/
theorem take_of_cstr_long (l : List Nat) (n : Nat) (h : n ≤ (cstr l).length) :
    l.take n = (cstr l).take n ∧ (l.take n).length = n ∧ ∀ b ∈ l.take n, b ≠ 0 := by
  obtain ⟨t, ht⟩ := cstr_prefix l
  have e : l.take n = (cstr l).take n := by
    conv_lhs => rw [← ht]
    rw [List.take_append_of_le_length h]
  refine ⟨e, ?_, ?_⟩
  · rw [e, List.length_take]; omega
  · intro b hb
    rw [e] at hb
    exact cstr_ne_zero l b (List.mem_of_mem_take hb)

theorem sext8_ne_zero (b : Nat) (h0 : b ≠ 0) (h256 : b < 256) : sext8 b ≠ 0 := by
  unfold sext8
  have e : b % 256 = b := Nat.mod_eq_of_lt h256
  rw [e]
  split <;> omega

theorem base64Encode_ne_zero (s : List Nat) (h : ∀ b ∈ s, b < 256) :
    ∀ ch ∈ base64Encode s, ch ≠ 0 := by
  intro ch hch
  have h0 : (0 : Nat) ∉ b64Alphabet := by decide
  rcases base64Encode_chars s h ch hch with hm | rfl
  · intro e; rw [e] at hm; exact h0 hm
  · decide

/-! ## The encoder at its cap -/

theorem mimeGroup_length (inp : List Nat) (s : MimeState) :
    (mimeGroup inp s).out.length = s.out.length := by
  simp [mimeGroup]

theorem mimeGroup_drop (inp : List Nat) (s : MimeState) (m : Nat) (h : s.j + 4 ≤ m) :
    (mimeGroup inp s).out.drop m = s.out.drop m := by
  simp only [mimeGroup]
  rw [List.drop_set_of_lt _ _ (by omega), List.drop_set_of_lt _ _ (by omega),
    List.drop_set_of_lt _ _ (by omega), List.drop_set_of_lt _ _ (by omega)]

theorem mimeGroup_i_full (inp : List Nat) (s : MimeState)
    (h1 : readChar inp (s.i + 1) ≠ 0) (h2 : readChar inp (s.i + 2) ≠ 0) :
    (mimeGroup inp s).i = s.i + 3 := by
  simp only [mimeGroup, h1, ne_eq, not_false_eq_true, if_true, h2]

/-- While the input has no NUL and the cap is not reached, every unit of fuel
consumes three bytes and produces four characters. -/
theorem mimeLoop_full (fuel : Nat) : ∀ (inp : List Nat) (s : MimeState),
    (∀ k, s.i ≤ k → k < s.i + 3 * fuel → readChar inp k ≠ 0) → s.j + 4 * fuel ≤ 64 →
    (mimeLoop fuel inp s).i = s.i + 3 * fuel ∧ (mimeLoop fuel inp s).j = s.j + 4 * fuel ∧
    (mimeLoop fuel inp s).out.length = s.out.length ∧
    (mimeLoop fuel inp s).out.drop (s.j + 4 * fuel) = s.out.drop (s.j + 4 * fuel) := by
  induction fuel with
  | zero => intro inp s _ _; simp [mimeLoop]
  | succ n ih =>
    intro inp s hnz hj
    have c : s.j < 64 ∧ readChar inp s.i ≠ 0 := ⟨by omega, hnz s.i (by omega) (by omega)⟩
    rw [mimeLoop, if_pos c]
    have hi := mimeGroup_i_full inp s (hnz _ (by omega) (by omega)) (hnz _ (by omega) (by omega))
    have hjg := mimeGroup_j inp s
    obtain ⟨r1, r2, r3, r4⟩ := ih inp (mimeGroup inp s)
      (fun k h1 h2 => hnz k (by omega) (by omega)) (by omega)
    refine ⟨by omega, by omega, ?_, ?_⟩
    · rw [r3, mimeGroup_length]
    · have e : s.j + 4 * (n + 1) = (mimeGroup inp s).j + 4 * n := by omega
      rw [e, r4, mimeGroup_drop inp s _ (by omega)]

/-- The number of `=` in a reference encoding: none after a full last group,
one after a group of two bytes, two after a group of one byte. -/
theorem base64Encode_pad_count : ∀ s : List Nat, (∀ b ∈ s, b < 256) →
    (base64Encode s).count 61 = (3 - s.length % 3) % 3
  | [], _ => by simp [base64Encode]
  | [a], h => by
    have ha : a < 256 := h a (by simp)
    have n0 := b64char_ne_pad (a / 4) (by omega)
    have n1 := b64char_ne_pad (a % 4 * 16) (by omega)
    simp [base64Encode, List.count_cons, n0, n1]
  | [a, b], h => by
    have ha : a < 256 := h a (by simp)
    have hb : b < 256 := h b (by simp)
    have n0 := b64char_ne_pad (a / 4) (by omega)
    have n1 := b64char_ne_pad (a % 4 * 16 + b / 16) (by omega)
    have n2 := b64char_ne_pad (b % 16 * 4) (by omega)
    simp [base64Encode, List.count_cons, n0, n1, n2]
  | a :: b :: c :: rest, h => by
    have ha : a < 256 := h a (by simp)
    have hb : b < 256 := h b (by simp)
    have hc : c < 256 := h c (by simp)
    have n0 := b64char_ne_pad (a / 4) (by omega)
    have n1 := b64char_ne_pad (a % 4 * 16 + b / 16) (by omega)
    have n2 := b64char_ne_pad (b % 16 * 4 + c / 64) (by omega)
    have n3 := b64char_ne_pad (c % 64) (by omega)
    have ih := base64Encode_pad_count rest (fun x hx => h x (by simp [hx]))
    simp only [base64Encode, List.count_cons, n0, n1, n2, n3, ih, List.length_cons, beq_iff_eq,
      if_false, Nat.add_zero]
    omega

theorem seven_bit_byte (inp : List Nat) (h7 : ∀ b ∈ inp, 1 ≤ b ∧ b ≤ 127) :
    (∀ b ∈ inp, 1 ≤ b ∧ b < 128) ∧ (∀ b ∈ inp, b < 256) :=
  ⟨fun b hb => ⟨(h7 b hb).1, by have := (h7 b hb).2; omega⟩,
   fun b hb => by have := (h7 b hb).2; omega⟩

/-! ## Claims about the encoder -/

/-- C1 as stated fails: the round trip through `mimeEncode` and a standard
Base64 decoder loses the bytes after a NUL (`[65, 0, 66]` comes back as `[65]`)
and, `char` being signed, a byte above 127 is not encoded as Base64 at all
(`[128]` gives the text `"!A=="`, which the decoder rejects). -/
theorem mimeEncode_round_trip_fails :
    ([65, 0, 66] : List Nat).length ≤ 48 ∧
    base64Decode (cstr (mimeEncode [65, 0, 66] (List.replicate 65 0)).out) = some [65] ∧
    ([128] : List Nat).length ≤ 48 ∧
    cstr (mimeEncode [128] (List.replicate 65 0)).out = ascii "!A==" ∧
    base64Decode (cstr (mimeEncode [128] (List.replicate 65 0)).out) = none := by
  decide

/-- C1 amended: for every string of at most 48 bytes, each byte in `1..127`,
decoding the text `mimeEncode` leaves in a buffer of at least 65 bytes with the
standard Base64 decoder gives the original bytes back. -/
theorem mimeEncode_round_trip (inp out : List Nat) (h7 : ∀ b ∈ inp, 1 ≤ b ∧ b ≤ 127)
    (hl : inp.length ≤ 48) (hcap : 65 ≤ out.length) :
    base64Decode (cstr (mimeEncode inp out).out) = some inp := by
  obtain ⟨h7', hb⟩ := seven_bit_byte inp h7
  rw [mimeEncode_seven_bit inp out h7' hl (by omega)]
  simp only
  rw [cstr_append_nul _ _ (base64Encode_ne_zero inp hb)]
  exact base64Decode_encode inp hb

/-- Instance of `mimeEncode_round_trip` at `"user:pass"`. -/
theorem mimeEncode_round_trip_witness :
    base64Decode (cstr (mimeEncode (ascii "user:pass") (List.replicate 65 0)).out)
      = some (ascii "user:pass") :=
  mimeEncode_round_trip (ascii "user:pass") (List.replicate 65 0) (by decide) (by decide)
    (by decide)

/-- C2: for every input of at most 45 bytes, each in `1..127`, and a buffer of
at least 65 bytes, `mimeEncode` returns `true` and stores the RFC 4648 Base64
text of the input followed by a NUL, touching nothing after it; that text has
`4 * ceil(L/3)` characters, all from the alphabet or `=`, with `=` only as the
padding of a short last group (two for one byte, one for two bytes); the empty
input gives the empty string and `"A"` gives `"QQ=="`. -/
theorem mimeEncode_is_base64 (inp out : List Nat) (h7 : ∀ b ∈ inp, 1 ≤ b ∧ b ≤ 127)
    (hl : inp.length ≤ 45) (hcap : 65 ≤ out.length) :
    (mimeEncode inp out).ret = true ∧
    (mimeEncode inp out).out
      = base64Encode inp ++ 0 :: out.drop (4 * ((inp.length + 2) / 3) + 1) ∧
    cstr (mimeEncode inp out).out = base64Encode inp ∧
    (base64Encode inp).length = 4 * ((inp.length + 2) / 3) ∧
    (∀ ch ∈ base64Encode inp, ch ∈ b64Alphabet ∨ ch = 61) ∧
    (base64Encode inp).count 61 = (3 - inp.length % 3) % 3 ∧
    (61 ∈ base64Encode inp ↔ inp.length % 3 ≠ 0) ∧
    ((mimeEncode [] out).ret = true ∧ cstr (mimeEncode [] out).out = []) ∧
    ((mimeEncode (ascii "A") out).ret = true ∧
      cstr (mimeEncode (ascii "A") out).out = ascii "QQ==") := by
  obtain ⟨h7', hb⟩ := seven_bit_byte inp h7
  have main : ∀ s : List Nat, (∀ b ∈ s, 1 ≤ b ∧ b ≤ 127) → s.length ≤ 45 →
      (mimeEncode s out).ret = true ∧
      (mimeEncode s out).out = base64Encode s ++ 0 :: out.drop (4 * ((s.length + 2) / 3) + 1) ∧
      cstr (mimeEncode s out).out = base64Encode s := by
    intro s hs hsl
    obtain ⟨hs', hsb⟩ := seven_bit_byte s hs
    rw [mimeEncode_seven_bit s out hs' (by omega) (by omega)]
    simp only [decide_eq_true_eq]
    exact ⟨hsl, trivial, cstr_append_nul _ _ (base64Encode_ne_zero s hsb)⟩
  obtain ⟨m1, m2, m3⟩ := main inp h7 hl
  obtain ⟨n1, _, n3⟩ := main [] (by simp) (by simp)
  obtain ⟨a1, _, a3⟩ := main (ascii "A") (by decide) (by decide)
  refine ⟨m1, m2, m3, base64Encode_length inp, base64Encode_chars inp hb,
    base64Encode_pad_count inp hb, base64Encode_pad inp hb, ⟨n1, ?_⟩, ⟨a1, ?_⟩⟩
  · rw [n3]; rfl
  · rw [a3]; decide

/-- Instance of `mimeEncode_is_base64` at `"user:pass"`, whose Base64 text is
`"dXNlcjpwYXNz"`. -/
theorem mimeEncode_is_base64_witness :
    (mimeEncode (ascii "user:pass") (List.replicate 65 7)).ret = true ∧
    cstr (mimeEncode (ascii "user:pass") (List.replicate 65 7)).out = ascii "dXNlcjpwYXNz" := by
  have h := mimeEncode_is_base64 (ascii "user:pass") (List.replicate 65 7) (by decide)
    (by decide) (by decide)
  refine ⟨h.1, ?_⟩
  rw [h.2.2.1]
  decide

/-- C9: for every input string longer than 48 bytes and a buffer of at least
65 bytes, `mimeEncode` returns `false` after 16 groups (48 bytes read, 64
characters written); the result is the one it gives for the first 48 bytes
alone, with a NUL at index 64 and nothing changed from index 65 on; when these
48 bytes are in `1..127` the 64 characters are their RFC 4648 Base64 text. -/
theorem mimeEncode_over_cap (inp out : List Nat) (hb : ∀ b ∈ inp, b < 256)
    (hlen : 48 < (cstr inp).length) (hcap : 65 ≤ out.length) :
    (mimeEncode inp out).ret = false ∧
    (mimeEncode inp out).i = 48 ∧
    (mimeEncode inp out).j = 64 ∧
    mimeEncode inp out = mimeEncode (inp.take 48) out ∧
    (mimeEncode inp out).out.length = out.length ∧
    (mimeEncode inp out).out[64]? = some 0 ∧
    (mimeEncode inp out).out.drop 65 = out.drop 65 ∧
    ((∀ b ∈ inp.take 48, b ≤ 127) →
      (mimeEncode inp out).out = base64Encode (inp.take 48) ++ 0 :: out.drop 65) := by
  obtain ⟨_, h48, hnz⟩ := take_of_cstr_long inp 48 (by omega)
  have hread : ∀ k, 0 ≤ k → k < 0 + 3 * 16 → readChar (inp.take 48) k ≠ 0 := by
    intro k _ hk
    have hk' : k < (inp.take 48).length := by omega
    have hm : (inp.take 48)[k] ∈ inp.take 48 := List.getElem_mem hk'
    have e : (inp.take 48).getD k 0 = (inp.take 48)[k] := by
      simp [List.getD_eq_getElem?_getD, List.getElem?_eq_getElem hk']
    rw [readChar, e]
    exact sext8_ne_zero _ (hnz _ hm) (hb _ (List.mem_of_mem_take hm))
  obtain ⟨r1, r2, r3, r4⟩ := mimeLoop_full 16 (inp.take 48) { i := 0, j := 0, out := out }
    hread (by simp)
  simp only [Nat.zero_add] at r1 r2 r3 r4
  have et := mimeEncode_take inp out
  refine ⟨?_, ?_, ?_, et, ?_, ?_, ?_, ?_⟩
  · rw [et]; simp [mimeEncode, r2]
  · rw [et]; simp [mimeEncode, r1]
  · rw [et]; simp [mimeEncode, r2]
  · rw [et]; simp [mimeEncode, r3]
  · rw [et]
    simp only [mimeEncode, r2]
    rw [List.getElem?_set_self (by omega)]
  · rw [et]
    simp only [mimeEncode, r2]
    rw [List.drop_set_of_lt _ _ (by omega)]
    have e : List.drop 65 (mimeLoop 16 (inp.take 48) { i := 0, j := 0, out := out }).out
        = List.drop 1 (List.drop 64 (mimeLoop 16 (inp.take 48) { i := 0, j := 0, out := out }).out) := by
      rw [List.drop_drop]
    rw [e, r4, List.drop_drop]
  · intro h127
    have h7 : ∀ b ∈ inp.take 48, 1 ≤ b ∧ b < 128 := by
      intro b hbm
      have := hnz b hbm
      have := h127 b hbm
      omega
    rw [et, mimeEncode_seven_bit (inp.take 48) out h7 (by omega) (by omega)]
    simp only [h48]

/-- Instance of `mimeEncode_over_cap` at 49 bytes `"B"`: the flag is `false`
and the NUL is at index 64. -/
theorem mimeEncode_over_cap_witness :
    (mimeEncode (List.replicate 49 66) (List.replicate 65 7)).ret = false ∧
    (mimeEncode (List.replicate 49 66) (List.replicate 65 7)).j = 64 :=
  have h := mimeEncode_over_cap (List.replicate 49 66) (List.replicate 65 7) (by decide)
    (by decide) (by decide)
  ⟨h.1, h.2.2.1⟩

/-! ## Claims about `login` -/

theorem getD_append_nul (text : List Nat) : ∀ k, (text ++ [0]).getD k 0 = text.getD k 0 := by
  induction text with
  | nil => intro k; cases k <;> simp
  | cons x xs ih =>
    intro k
    cases k with
    | zero => simp
    | succ n => simpa using ih n

/-- The terminating NUL may be part of the list or implied by its end. -/
theorem mimeEncode_nul_terminated (text out : List Nat) :
    mimeEncode (text ++ [0]) out = mimeEncode text out := by
  have key := mimeLoop_congr 16 (text ++ [0]) text { i := 0, j := 0, out := out }
    (fun k _ => getD_append_nul text k)
  simp only [mimeEncode, key]

/-- C7: for every `user` and `pass` whose strings are 7-bit bytes with
`len(user) + len(pass) + 1 < 40`, `login` returns `true`, the stored
credentials become the Base64 text of `user ++ ":" ++ pass` (NUL-terminated in
the 64-byte field), the status becomes `Success`, and the server fields are
untouched. -/
theorem login_success (st : State) (user pass : List Nat)
    (hd : st.login_details.length = 64)
    (hu : ∀ b ∈ cstr user, b ≤ 127) (hp : ∀ b ∈ cstr pass, b ≤ 127)
    (hlen : (cstr user).length + (cstr pass).length + 1 < 40) :
    (login st user pass).1 = true ∧
    cstr (login st user pass).2.login_details = base64Encode (cstr user ++ 58 :: cstr pass) ∧
    (login st user pass).2.current_status = Status.Success ∧
    (login st user pass).2.login_details.length = 64 ∧
    (login st user pass).2.server = st.server ∧
    (login st user pass).2.server_ip = st.server_ip := by
  have htl : (cstr user ++ 58 :: cstr pass).length < 40 := by
    simp only [List.length_append, List.length_cons]; omega
  have h7 : ∀ b ∈ cstr user ++ 58 :: cstr pass, 1 ≤ b ∧ b < 128 := by
    intro b hb
    simp only [List.mem_append, List.mem_cons] at hb
    rcases hb with h | rfl | h
    · have := cstr_ne_zero user b h
      have := hu b h
      omega
    · omega
    · have := cstr_ne_zero pass b h
      have := hp b h
      omega
  have hb : ∀ b ∈ cstr user ++ 58 :: cstr pass, b < 256 := fun b h => by
    have := (h7 b h).2; omega
  have htake : (cstr user ++ 58 :: cstr pass).take (40 - 1) = cstr user ++ 58 :: cstr pass :=
    List.take_of_length_le (by omega)
  have henc := mimeEncode_seven_bit (cstr user ++ 58 :: cstr pass) st.login_details h7
    (by omega) (by omega)
  have hdec : decide ((cstr user ++ 58 :: cstr pass).length ≤ 45) = true := by
    simp only [decide_eq_true_eq]; omega
  simp only [login, snprintf_login, htl, if_true, htake, mimeEncode_nul_terminated, henc, hdec]
  refine ⟨trivial, cstr_append_nul _ _ (base64Encode_ne_zero _ hb), trivial, ?_, trivial, trivial⟩
  simp only [List.length_append, List.length_cons, List.length_drop, base64Encode_length]
  omega

/-- Instance of `login_success`: `login("user", "pass")` on a fresh client
stores `"dXNlcjpwYXNz"`. -/
theorem login_success_witness :
    (login init (ascii "user") (ascii "pass")).1 = true ∧
    cstr (login init (ascii "user") (ascii "pass")).2.login_details = ascii "dXNlcjpwYXNz" ∧
    (login init (ascii "user") (ascii "pass")).2.current_status = Status.Success := by
  have h := login_success init (ascii "user") (ascii "pass") (by decide) (by decide)
    (by decide) (by decide)
  refine ⟨h.1, ?_, h.2.2.1⟩
  rw [h.2.1]
  decide

/-- C8: for every `user` and `pass` with `len(user) + len(pass) ≥ 39`, `login`
returns `false` and leaves the whole client state (status and stored
credentials included) as it was. -/
theorem login_rejected (st : State) (user pass : List Nat)
    (hlen : 39 ≤ (cstr user).length + (cstr pass).length) :
    login st user pass = (false, st) := by
  have h : ¬ (cstr user ++ 58 :: cstr pass).length < 40 := by
    simp only [List.length_append, List.length_cons]; omega
  simp only [login, snprintf_login, h, if_false]

/-- Instance of `login_rejected`: a 20-byte user and a 19-byte password on a
client that is already logged in. -/
theorem login_rejected_witness :
    login (login init (ascii "user") (ascii "pass")).2 (List.replicate 20 97)
        (List.replicate 19 98)
      = (false, (login init (ascii "user") (ascii "pass")).2) :=
  login_rejected _ (List.replicate 20 97) (List.replicate 19 98) (by decide)

/-! ## The receive loop: basic facts -/

theorem scanLoop_of_full (s : ScanState) (bs : List Nat) (h : s.buffer_full = true) :
    scanLoop s bs = s := by
  cases bs with
  | nil => rfl
  | cons b bs => simp [scanLoop, h]

theorem scanLoop_append (a b : List Nat) : ∀ s : ScanState,
    scanLoop s (a ++ b) = scanLoop (scanLoop s a) b := by
  induction a with
  | nil => intro s; rfl
  | cons x xs ih =>
    intro s
    by_cases hf : s.buffer_full = true
    · simp only [List.cons_append, scanLoop, hf, if_true, scanLoop_of_full s b hf]
    · simp only [List.cons_append, scanLoop, hf, if_false]
      exact ih _

theorem scanStep_length (s : ScanState) (b : Nat) :
    (scanStep s b).resp_buffer.length = s.resp_buffer.length := by
  simp only [scanStep]
  split_ifs <;> simp

theorem scanStep_nread (s : ScanState) (b : Nat) : (scanStep s b).nread = s.nread + 1 := by
  simp only [scanStep]
  split_ifs <;> rfl

theorem scanLoop_length (bs : List Nat) : ∀ s : ScanState,
    (scanLoop s bs).resp_buffer.length = s.resp_buffer.length := by
  induction bs with
  | nil => intro s; rfl
  | cons b bs ih =>
    intro s
    simp only [scanLoop]
    split
    · rfl
    · rw [ih, scanStep_length]

theorem scanLoop_nread_le (bs : List Nat) : ∀ s : ScanState,
    (scanLoop s bs).nread ≤ s.nread + bs.length := by
  induction bs with
  | nil => intro s; simp [scanLoop]
  | cons b bs ih =>
    intro s
    simp only [scanLoop, List.length_cons]
    split
    · omega
    · have := ih (scanStep s b)
      rw [scanStep_nread] at this
      omega

theorem getD_set_self (l : List Nat) (i v : Nat) (h : i < l.length) :
    (l.set i v).getD i 0 = v := by
  simp [List.getD_eq_getElem?_getD, List.getElem?_set_self h]

/-- The iteration that fills the last cell of the scan buffer. -/
theorem scanStep_full (s : ScanState) (b : Nat) (h : RESPONSE_BUFFER_SIZE ≤ s.idx + 1) :
    (scanStep s b).buffer_full = true ∧ (scanStep s b).ret = s.ret := by
  simp only [scanStep, ge_iff_le, h, if_true, and_self]

/-- The iteration that stores a line feed below the capacity. -/
theorem scanStep_lf (s : ScanState) (h : s.idx + 1 < RESPONSE_BUFFER_SIZE)
    (hl : s.resp_buffer.length = RESPONSE_BUFFER_SIZE) :
    scanStep s 10 =
      { resp_buffer := (s.resp_buffer.set s.idx 10).set (s.idx + 1) 0
        idx := 0
        ret := statusUpdate ((s.resp_buffer.set s.idx 10).set (s.idx + 1) 0) s.ret
        buffer_full := false
        nread := s.nread + 1
        writes := (s.idx + 1) :: s.idx :: s.writes } := by
  have h1 : ¬ RESPONSE_BUFFER_SIZE ≤ s.idx + 1 := by omega
  have h2 : (s.resp_buffer.set s.idx 10).getD (s.idx + 1 - 1) 0 = 10 := by
    rw [Nat.add_sub_cancel]
    exact getD_set_self _ _ _ (by omega)
  simp only [scanStep, ge_iff_le, h1, if_false, h2, if_true]

/-- The iteration that stores any other byte below the capacity. -/
theorem scanStep_other (s : ScanState) (b : Nat) (hb : b ≠ 10)
    (h : s.idx + 1 < RESPONSE_BUFFER_SIZE) (hl : s.resp_buffer.length = RESPONSE_BUFFER_SIZE) :
    scanStep s b =
      { s with resp_buffer := s.resp_buffer.set s.idx b, idx := s.idx + 1
               nread := s.nread + 1, writes := s.idx :: s.writes } := by
  have h1 : ¬ RESPONSE_BUFFER_SIZE ≤ s.idx + 1 := by omega
  have h2 : ¬ (s.resp_buffer.set s.idx b).getD (s.idx + 1 - 1) 0 = 10 := by
    rw [Nat.add_sub_cancel, getD_set_self _ _ _ (by omega)]
    exact hb
  simp only [scanStep, ge_iff_le, h1, if_false, h2]

theorem take_set_succ (l : List Nat) (i v : Nat) (h : i < l.length) :
    (l.set i v).take (i + 1) = l.take i ++ [v] := by
  induction l generalizing i with
  | nil => simp at h
  | cons x xs ih =>
    cases i with
    | zero => simp
    | succ n =>
      have := ih n (by simpa using h)
      simp [this]

theorem set_eq_append (l : List Nat) (i v : Nat) (h : i < l.length) :
    l.set i v = l.take i ++ v :: l.drop (i + 1) := by
  induction l generalizing i with
  | nil => simp at h
  | cons x xs ih =>
    cases i with
    | zero => simp
    | succ n =>
      have := ih n (by simpa using h)
      simp [this]

/-- The scan buffer after a line feed was stored at `idx` and a NUL after it. -/
theorem buffer_after_lf (buf : List Nat) (i : Nat) (h : i + 1 < buf.length) :
    (buf.set i 10).set (i + 1) 0 = (buf.take i ++ [10]) ++ 0 :: buf.drop (i + 2) := by
  rw [set_eq_append (buf.set i 10) (i + 1) 0 (by simpa using h)]
  rw [take_set_succ buf i 10 (by omega)]
  rw [List.drop_set_of_lt _ _ (by omega)]

/-! ## `strncmp`, `sscanf` and the status line -/

/-- The comparison `strncmp` never looks past the first NUL of its first argument. -/
theorem strncmp_junk (n : Nat) : ∀ (l p junk : List Nat),
    strncmp (l ++ 0 :: junk) p n = strncmp (l ++ [0]) p n := by
  induction n with
  | zero => intro l p junk; rfl
  | succ k ih =>
    intro l p junk
    cases l with
    | nil => simp [strncmp]
    | cons x xs =>
      simp only [strncmp, List.cons_append, List.headD_cons, List.tail_cons]
      rw [ih xs p.tail junk]

/-- When `strncmp` finds no difference over the `n` bytes of a NUL-free pattern,
the first `n` bytes of the string are the pattern. -/
theorem strncmp_zero_take (n : Nat) : ∀ (s p : List Nat), p.length = n → (∀ c ∈ p, c ≠ 0) →
    strncmp s p n = 0 → s.take n = p := by
  induction n with
  | zero =>
    intro s p hp _ _
    have : p = [] := List.length_eq_zero.mp hp
    simp [this]
  | succ k ih =>
    intro s p hp hnz h
    match p, hp, hnz with
    | q :: p', hp, hnz =>
      have hq : q ≠ 0 := hnz q (by simp)
      cases s with
      | nil =>
        simp only [strncmp, List.headD_nil, List.headD_cons] at h
        have hne : (0 : Nat) ≠ q := fun e => hq e.symm
        rw [if_pos hne] at h
        omega
      | cons x xs =>
        simp only [strncmp, List.headD_cons, List.tail_cons] at h
        by_cases hx : x = q
        · subst hx
          simp only [ne_eq, not_true_eq_false, if_false, hq] at h
          have := ih xs p' (by simpa using hp) (fun c hc => hnz c (by simp [hc])) h
          simp [this]
        · rw [if_pos hx] at h
          omega

/-- Conversely, a string that starts with the `n` bytes of a NUL-free pattern
compares equal over `n` bytes. -/
theorem strncmp_of_take (n : Nat) : ∀ (s p : List Nat), p.length = n → (∀ c ∈ p, c ≠ 0) →
    s.take n = p → strncmp s p n = 0 := by
  induction n with
  | zero => intro s p _ _ _; rfl
  | succ k ih =>
    intro s p hp hnz h
    match p, hp, hnz, s, h with
    | q :: p', hp, hnz, x :: xs, h =>
      simp only [List.take_succ_cons, List.cons.injEq] at h
      obtain ⟨rfl, ht⟩ := h
      have hq : x ≠ 0 := hnz x (by simp)
      simp only [strncmp, List.headD_cons, List.tail_cons, ne_eq, not_true_eq_false, if_false, hq]
      exact ih xs p' (by simpa using hp) (fun c hc => hnz c (by simp [hc])) ht

theorem cstr_append_nul_any (a junk : List Nat) : cstr (a ++ 0 :: junk) = cstr a := by
  induction a with
  | nil => simp [cstr]
  | cons x xs ih =>
    simp only [cstr] at ih
    by_cases hx : x = 0
    · simp [cstr, hx]
    · simp [cstr, hx, ih]

/-- The conversion `sscanf_d` reads its input as a C string. -/
theorem sscanf_d_junk (a junk : List Nat) (r : Int) :
    sscanf_d (a ++ 0 :: junk) r = sscanf_d a r := by
  simp only [sscanf_d, cstr_append_nul_any]

theorem HTTP_1_0_spec : HTTP_1_0.length = 8 ∧ (∀ c ∈ HTTP_1_0, c ≠ 0) ∧ (10 : Nat) ∉ HTTP_1_0 := by
  decide

theorem prefix_iff_take (l : List Nat) : HTTP_1_0 <+: l ↔ l.take 8 = HTTP_1_0 := by
  rw [List.prefix_iff_eq_take, HTTP_1_0_spec.1]
  exact eq_comm

/-- A stored line (ending in a line feed, followed by the NUL) passes the
`strncmp` test exactly when it begins with `"HTTP/1.0"`; such a line has at
least 9 bytes. -/
theorem strncmp_line (c : List Nat) :
    (strncmp ((c ++ [10]) ++ [0]) HTTP_1_0 8 = 0 ↔ HTTP_1_0 <+: (c ++ [10])) ∧
    (HTTP_1_0 <+: (c ++ [10]) → 8 ≤ c.length) := by
  obtain ⟨h8, hnz, h10⟩ := HTTP_1_0_spec
  have hlen : HTTP_1_0 <+: (c ++ [10]) → 8 ≤ c.length := by
    intro hp
    by_contra hc
    have hm : (10 : Nat) ∈ (c ++ [10]).take 8 := by
      rw [List.take_append_eq_append_take]
      have e : 8 - c.length = (8 - c.length - 1) + 1 := by omega
      rw [e]
      simp
    rw [(prefix_iff_take _).mp hp] at hm
    exact h10 hm
  refine ⟨⟨fun h => ?_, fun h => ?_⟩, hlen⟩
  · have ht := strncmp_zero_take 8 _ _ h8 hnz h
    rw [prefix_iff_take]
    by_cases hc : 8 ≤ (c ++ [10]).length
    · rw [List.take_append_of_le_length hc] at ht
      exact ht
    · have hm : (0 : Nat) ∈ ((c ++ [10]) ++ [0]).take 8 := by
        rw [List.take_append_eq_append_take]
        have e : 8 - (c ++ [10]).length = (8 - (c ++ [10]).length - 1) + 1 := by omega
        rw [e]
        simp
      rw [ht] at hm
      exact absurd rfl (hnz 0 hm)
  · have hc := hlen h
    apply strncmp_of_take 8 _ _ h8 hnz
    rw [List.take_append_of_le_length (by simp; omega)]
    exact (prefix_iff_take _).mp h

/-- The status-line test on the scan buffer only depends on the stored line. -/
theorem statusUpdate_line (c junk : List Nat) (r : Int) :
    statusUpdate ((c ++ [10]) ++ 0 :: junk) r = lineStatus r (c ++ [10]) := by
  simp only [lineStatus, statusUpdate, strncmp_junk]
  by_cases h : strncmp ((c ++ [10]) ++ [0]) HTTP_1_0 8 = 0
  · have hc := (strncmp_line c).2 ((strncmp_line c).1.mp h)
    have hl : 9 ≤ (c ++ [10]).length := by simp; omega
    have e1 : List.drop 9 ((c ++ [10]) ++ 0 :: junk) = List.drop 9 (c ++ [10]) ++ 0 :: junk :=
      List.drop_append_of_le_length hl
    have e2 : List.drop 9 ((c ++ [10]) ++ [0]) = List.drop 9 (c ++ [10]) ++ [0] :=
      List.drop_append_of_le_length hl
    simp only [h, if_true, e1, e2, sscanf_d_junk]
  · simp only [h, if_false]

/-- Effect of a complete line: one that does not begin with `"HTTP/1.0"` leaves
`ret` alone; one that does sets it from the text at offset 9. -/
theorem lineStatus_eq (c : List Nat) (r : Int) :
    lineStatus r (c ++ [10]) =
      if HTTP_1_0 <+: (c ++ [10]) then
        (if (sscanf_d ((c ++ [10]).drop 9) r).1 = 0 then 0
         else (sscanf_d ((c ++ [10]).drop 9) r).2)
      else r := by
  have hs := strncmp_line c
  simp only [lineStatus, statusUpdate]
  by_cases h : HTTP_1_0 <+: (c ++ [10])
  · have hl : 9 ≤ (c ++ [10]).length := by
      have := hs.2 h
      simp; omega
    have e2 : List.drop 9 ((c ++ [10]) ++ [0]) = List.drop 9 (c ++ [10]) ++ [0] :=
      List.drop_append_of_le_length hl
    simp only [hs.1.mpr h, h, if_true, e2, sscanf_d_junk]
  · have : ¬ strncmp ((c ++ [10]) ++ [0]) HTTP_1_0 8 = 0 := fun e => h (hs.1.mp e)
    simp only [this, h, if_false]

/-! ## Lines of a response -/

theorem linesFrom_end_lf (bs : List Nat) : ∀ cur : List Nat,
    ∀ l ∈ linesFrom cur bs, ∃ c, l = c ++ [10] := by
  induction bs with
  | nil => intro cur l hl; simp [linesFrom] at hl
  | cons b bs ih =>
    intro cur l hl
    simp only [linesFrom] at hl
    split at hl
    · rename_i hb
      simp only [List.mem_cons] at hl
      rcases hl with rfl | hl
      · exact ⟨cur, by rw [hb]⟩
      · exact ih [] l hl
    · exact ih _ l hl

/-- The bytes already received stay part of the current line: some complete
line is longer than `cur`, or the trailing fragment is at least as long. -/
theorem linesFrom_grow (bs : List Nat) : ∀ cur : List Nat,
    (∃ l ∈ linesFrom cur bs, cur.length < l.length) ∨
      cur.length ≤ (fragmentFrom cur bs).length := by
  induction bs with
  | nil => intro cur; right; simp [fragmentFrom]
  | cons b bs ih =>
    intro cur
    by_cases hb : b = 10
    · left
      refine ⟨cur ++ [b], ?_, by simp⟩
      simp [linesFrom, hb]
    · simp only [linesFrom, fragmentFrom, hb, if_false]
      rcases ih (cur ++ [b]) with ⟨l, hl, hlt⟩ | h
      · left
        exact ⟨l, hl, by simp at hlt; omega⟩
      · right
        simp at h; omega

theorem not_fitsFrom_of_long (cur bs : List Nat) (h : RESPONSE_BUFFER_SIZE ≤ cur.length) :
    ¬ fitsFrom cur bs := by
  intro hf
  rcases linesFrom_grow bs cur with ⟨l, hl, hlt⟩ | hg
  · have := hf.1 l hl
    omega
  · have := hf.2
    omega

theorem fitsFrom_cons_lf (cur bs : List Nat) :
    fitsFrom cur (10 :: bs) ↔ cur.length + 1 < RESPONSE_BUFFER_SIZE ∧ fitsFrom [] bs := by
  simp only [fitsFrom, linesFrom, fragmentFrom, if_true, List.mem_cons, forall_eq_or_imp,
    List.length_append, List.length_singleton]
  tauto

theorem fitsFrom_cons_other (cur bs : List Nat) (b : Nat) (hb : b ≠ 10) :
    fitsFrom cur (b :: bs) ↔ fitsFrom (cur ++ [b]) bs := by
  simp only [fitsFrom, linesFrom, fragmentFrom, hb, if_false]

/-! ## The receive loop follows the lines of the response -/

/-- Simulation of the receive loop.  From a state whose scan buffer holds the
bytes `cur` received since the last line feed, the loop ends without overflow
exactly when no line reaches the capacity; it has then read every byte, `ret`
is the fold of `lineStatus` over the complete lines, and the buffer holds the
trailing fragment. -/
theorem scanLoop_sim (bs : List Nat) : ∀ (s : ScanState) (cur : List Nat),
    s.buffer_full = false → s.resp_buffer.length = RESPONSE_BUFFER_SIZE →
    s.idx = cur.length → s.resp_buffer.take s.idx = cur → cur.length < RESPONSE_BUFFER_SIZE →
    ((scanLoop s bs).buffer_full = false ↔ fitsFrom cur bs) ∧
    ((scanLoop s bs).buffer_full = false →
      (scanLoop s bs).ret = (linesFrom cur bs).foldl lineStatus s.ret ∧
      (scanLoop s bs).idx = (fragmentFrom cur bs).length ∧
      (scanLoop s bs).resp_buffer.take (scanLoop s bs).idx = fragmentFrom cur bs ∧
      (scanLoop s bs).nread = s.nread + bs.length) := by
  induction bs with
  | nil =>
    intro s cur hf _ hi ht hc
    simp only [scanLoop, fitsFrom, linesFrom, fragmentFrom, List.not_mem_nil, false_implies,
      implies_true, true_and, List.foldl_nil, List.length_nil, Nat.add_zero]
    exact ⟨⟨fun _ => hc, fun _ => hf⟩, fun _ => ⟨hi, ht, trivial⟩⟩
  | cons b bs ih =>
    intro s cur hf hl hi ht hc
    have hstep : scanLoop s (b :: bs) = scanLoop (scanStep s b) bs := by
      simp only [scanLoop, hf, Bool.false_eq_true, if_false]
    rw [hstep]
    by_cases hcap : RESPONSE_BUFFER_SIZE ≤ s.idx + 1
    · -- the buffer fills up
      have hfull := (scanStep_full s b hcap).1
      rw [scanLoop_of_full _ _ hfull]
      have hnf : ¬ fitsFrom cur (b :: bs) := by
        by_cases hb : b = 10
        · subst hb
          rw [fitsFrom_cons_lf]
          omega
        · rw [fitsFrom_cons_other cur bs b hb]
          exact not_fitsFrom_of_long _ _ (by simp; omega)
      simp only [hfull, Bool.true_eq_false, false_iff, false_implies, and_true]
      exact hnf
    · have hlt : s.idx + 1 < RESPONSE_BUFFER_SIZE := by omega
      by_cases hb : b = 10
      · -- a line feed: the line is complete
        subst hb
        have hbuf := buffer_after_lf s.resp_buffer s.idx (by omega)
        rw [ht] at hbuf
        rw [scanStep_lf s hlt hl, hbuf, statusUpdate_line]
        have := ih { resp_buffer := (cur ++ [10]) ++ 0 :: s.resp_buffer.drop (s.idx + 2)
                     idx := 0
                     ret := lineStatus s.ret (cur ++ [10])
                     buffer_full := false
                     nread := s.nread + 1
                     writes := (s.idx + 1) :: s.idx :: s.writes } [] rfl
          (by rw [← hbuf]; simpa using hl) rfl rfl (by simp [RESPONSE_BUFFER_SIZE])
        obtain ⟨h1, h2⟩ := this
        refine ⟨?_, ?_⟩
        · rw [h1, fitsFrom_cons_lf]
          constructor
          · intro h; exact ⟨by omega, h⟩
          · intro h; exact h.2
        · intro h
          obtain ⟨r1, r2, r3, r4⟩ := h2 h
          simp only [linesFrom, fragmentFrom, if_true, List.foldl_cons, List.length_cons]
          exact ⟨r1, r2, r3, by rw [r4]; simp only; omega⟩
      · -- any other byte
        rw [scanStep_other s b hb hlt hl]
        have := ih { s with resp_buffer := s.resp_buffer.set s.idx b, idx := s.idx + 1
                            nread := s.nread + 1, writes := s.idx :: s.writes } (cur ++ [b]) hf
          (by simpa using hl) (by simp [hi])
          (by
            show (s.resp_buffer.set s.idx b).take (s.idx + 1) = cur ++ [b]
            rw [take_set_succ _ _ _ (by omega), ht])
          (by simp; omega)
        obtain ⟨h1, h2⟩ := this
        refine ⟨?_, ?_⟩
        · rw [h1, fitsFrom_cons_other cur bs b hb]
        · intro h
          obtain ⟨r1, r2, r3, r4⟩ := h2 h
          simp only [linesFrom, fragmentFrom, hb, if_false, List.length_cons]
          exact ⟨r1, r2, r3, by rw [r4]; simp only; omega⟩

/-! ## `call` in terms of the lines of the response -/

theorem freshBuffer_length (stack : List Nat) :
    (freshBuffer stack).length = RESPONSE_BUFFER_SIZE := by
  simp [freshBuffer, RESPONSE_BUFFER_SIZE]

/-- The receive loop of `call` on a whole response. -/
theorem scanResponse_spec (stack incoming : List Nat) :
    ((scanResponse stack incoming).buffer_full = false ↔ fitsBuffer incoming) ∧
    ((scanResponse stack incoming).buffer_full = false →
      (scanResponse stack incoming).ret = (completeLines incoming).foldl lineStatus 0 ∧
      (scanResponse stack incoming).nread = incoming.length) := by
  have h := scanLoop_sim incoming (scanInit stack) [] rfl (freshBuffer_length stack) rfl rfl
    (by simp [RESPONSE_BUFFER_SIZE])
  simp only [scanResponse, fitsBuffer, completeLines]
  refine ⟨h.1, fun hf => ?_⟩
  obtain ⟨r1, _, _, r4⟩ := h.2 hf
  refine ⟨r1, ?_⟩
  rw [r4]
  simp [scanInit]

/-- What the embedding of `call` returns on a connection that opens: after an
overflow the `-1` of line 127 (reached only past the stray store of line 123),
and otherwise the status left by the complete lines, every byte having been
read. -/
theorem call_connected (st : State) (stack incoming method uri : List Nat)
    (mime payload response : Option (List Nat)) (response_size : Nat) :
    (¬ fitsBuffer incoming →
      (call st ⟨true, incoming⟩ stack method uri mime payload response response_size).ret = -1 ∧
      (call st ⟨true, incoming⟩ stack method uri mime payload response response_size).response
        = response ∧
      (call st ⟨true, incoming⟩ stack method uri mime payload response response_size).stored = 0) ∧
    (fitsBuffer incoming →
      (call st ⟨true, incoming⟩ stack method uri mime payload response response_size).ret
        = (completeLines incoming).foldl lineStatus 0 ∧
      ∃ s, (call st ⟨true, incoming⟩ stack method uri mime payload response response_size).scan
          = some s ∧ s.buffer_full = false ∧ s.nread = incoming.length) := by
  have hs := scanResponse_spec stack incoming
  constructor
  · intro hn
    have hfull : (scanResponse stack incoming).buffer_full = true := by
      cases hb : (scanResponse stack incoming).buffer_full with
      | true => rfl
      | false => exact absurd (hs.1.mp hb) hn
    simp [call, hfull]
  · intro hf
    have hnf := hs.1.mpr hf
    obtain ⟨r1, r2⟩ := hs.2 hnf
    cases response with
    | none => simp [call, hnf, r1, r2]
    | some dst =>
      by_cases hz : response_size > 0
      · simp [call, hnf, r1, r2, hz]
      · simp [call, hnf, r1, r2, hz]

theorem linesFrom_line (c rest : List Nat) (hc : (10 : Nat) ∉ c) : ∀ cur : List Nat,
    linesFrom cur (c ++ 10 :: rest) = (cur ++ c ++ [10]) :: linesFrom [] rest ∧
    fragmentFrom cur (c ++ 10 :: rest) = fragmentFrom [] rest := by
  induction c with
  | nil => intro cur; simp [linesFrom, fragmentFrom]
  | cons x xs ih =>
    intro cur
    have hx : x ≠ 10 := fun e => hc (by simp [e])
    have := ih (fun h => hc (by simp [h])) (cur ++ [x])
    have e : cur ++ (x :: xs) ++ [10] = cur ++ [x] ++ xs ++ [10] := by simp
    rw [e, ← this.1, ← this.2]
    simp only [List.cons_append, linesFrom, fragmentFrom, hx, if_false]
    exact ⟨rfl, rfl⟩

theorem foldl_lineStatus_other (ls : List (List Nat)) : ∀ r : Int,
    (∀ l ∈ ls, (∃ c, l = c ++ [10]) ∧ ¬ HTTP_1_0 <+: l) → ls.foldl lineStatus r = r := by
  induction ls with
  | nil => intro r _; rfl
  | cons l ls ih =>
    intro r h
    obtain ⟨⟨c, rfl⟩, hp⟩ := h l (by simp)
    rw [List.foldl_cons, lineStatus_eq, if_neg hp]
    exact ih r (fun l' hl' => h l' (by simp [hl']))

theorem sscanf_d_cases (s : List Nat) (r : Int) :
    sscanf_d s r = (EOF, r) ∨ sscanf_d s r = (0, r) ∨ ∃ v, ∀ r', sscanf_d s r' = (1, v) := by
  simp only [sscanf_d]
  split
  · left; rfl
  · split_ifs <;>
      first
        | (right; left; rfl)
        | (right; right; exact ⟨_, fun _ => rfl⟩)

/-- A status of `-1` left by the complete lines comes from a line that begins
with `"HTTP/1.0"` and whose text at offset 9 converts to `-1`. -/
theorem foldl_lineStatus_minus_one (ls : List (List Nat)) : ∀ r : Int,
    (∀ l ∈ ls, ∃ c, l = c ++ [10]) → ls.foldl lineStatus r = -1 →
    r = -1 ∨ ∃ l ∈ ls, HTTP_1_0 <+: l ∧ sscanf_d (l.drop 9) 0 = (1, -1) := by
  induction ls with
  | nil => intro r _ h; left; exact h
  | cons l ls ih =>
    intro r hlf h
    rw [List.foldl_cons] at h
    rcases ih _ (fun l' hl' => hlf l' (by simp [hl'])) h with h1 | ⟨l', hl', hp⟩
    · obtain ⟨c, rfl⟩ := hlf l (by simp)
      rw [lineStatus_eq] at h1
      by_cases hpre : HTTP_1_0 <+: (c ++ [10])
      · rw [if_pos hpre] at h1
        rcases sscanf_d_cases ((c ++ [10]).drop 9) r with e | e | ⟨v, e⟩
        · rw [e] at h1
          simp only [EOF] at h1
          left
          simpa using h1
        · rw [e] at h1
          simp at h1
        · rw [e r] at h1
          simp only [one_ne_zero, if_false] at h1
          right
          exact ⟨c ++ [10], by simp, hpre, by rw [e 0, h1]⟩
      · rw [if_neg hpre] at h1
        left; exact h1
    · right
      exact ⟨l', by simp [hl'], hp⟩

theorem call_scan (st : State) (stack incoming method uri : List Nat)
    (mime payload response : Option (List Nat)) (response_size : Nat) :
    (call st ⟨true, incoming⟩ stack method uri mime payload response response_size).scan
      = some (scanResponse stack incoming) := by
  simp only [call, Bool.not_true, Bool.false_eq_true, if_false]
  split
  · rfl
  · split
    · split <;> rfl
    · rfl

theorem linesFrom_nolf (c bs : List Nat) (hc : ∀ b ∈ c, b ≠ 10) : ∀ cur : List Nat,
    fitsFrom cur (c ++ bs) ↔ fitsFrom (cur ++ c) bs := by
  induction c with
  | nil => intro cur; simp
  | cons x xs ih =>
    intro cur
    have hx : x ≠ 10 := hc x (by simp)
    rw [List.cons_append, fitsFrom_cons_other cur _ x hx, ih (fun b hb => hc b (by simp [hb]))]
    simp

theorem fitsFrom_after_lf (p b : List Nat) : ∀ cur : List Nat,
    fitsFrom cur (p ++ 10 :: b) → fitsFrom [] b := by
  induction p with
  | nil => intro cur h; exact ((fitsFrom_cons_lf cur b).mp h).2
  | cons x xs ih =>
    intro cur h
    by_cases hx : x = 10
    · subst hx
      exact ih [] ((fitsFrom_cons_lf cur _).mp h).2
    · exact ih _ ((fitsFrom_cons_other cur _ x hx).mp h)

/-- A run of 100 bytes that starts a line and has no line feed among its first
99 bytes does not fit the scan buffer, whatever precedes and follows it. -/
theorem not_fits_of_long_run (pre seg rest : List Nat)
    (hpre : pre = [] ∨ ∃ p, pre = p ++ [10])
    (hseg : seg.length = RESPONSE_BUFFER_SIZE) (hnolf : ∀ b ∈ seg.take 99, b ≠ 10) :
    ¬ fitsBuffer (pre ++ seg ++ rest) := by
  have hsplit : seg = seg.take 99 ++ seg.drop 99 := (List.take_append_drop 99 seg).symm
  have hrun : ¬ fitsFrom [] (seg ++ rest) := by
    rw [hsplit, List.append_assoc, linesFrom_nolf _ _ hnolf]
    have hlen : (seg.take 99).length = 99 := by
      rw [List.length_take, hseg]; rfl
    cases hd : seg.drop 99 with
    | nil =>
      have : (seg.drop 99).length = 1 := by rw [List.length_drop, hseg]; rfl
      rw [hd] at this
      simp at this
    | cons x xs =>
      simp only [List.nil_append, List.cons_append]
      by_cases hx : x = 10
      · subst hx
        rw [fitsFrom_cons_lf, hlen]
        simp [RESPONSE_BUFFER_SIZE]
      · rw [fitsFrom_cons_other _ _ x hx]
        exact not_fitsFrom_of_long _ _ (by simp [hlen, RESPONSE_BUFFER_SIZE])
  intro hf
  rcases hpre with rfl | ⟨p, rfl⟩
  · exact hrun (by simpa [fitsBuffer] using hf)
  · apply hrun
    apply fitsFrom_after_lf p (seg ++ rest) []
    simpa [fitsBuffer] using hf

/-! ## Claims about `call` -/

/-- C3 as stated fails: after the line `"HTTP/1.0 200 OK\r\n"`, a later line
that begins with `"HTTP/1.0"` replaces the status; here no line is long and
`call` returns 404. -/
theorem call_first_status_overwritten :
    fitsBuffer (ascii "HTTP/1.0 200 OK\r\n" ++ ascii "HTTP/1.0 404 Not Found\r\n") ∧
    (call init ⟨true, ascii "HTTP/1.0 200 OK\r\n" ++ ascii "HTTP/1.0 404 Not Found\r\n"⟩ []
      (ascii "GET") (ascii "/") none none none 0).ret = 404 := by
  decide

/-- C3 amended: for every response that begins with the line
`"HTTP/1.0 200 OK\r\n"`, followed by any bytes in which no line reaches the
scan-buffer capacity and no complete line begins with `"HTTP/1.0"`, `call` (on
a connection that opens) returns 200, after reading the response to its end. -/
theorem call_first_status_200 (st : State) (stack rest method uri : List Nat)
    (mime payload response : Option (List Nat)) (response_size : Nat)
    (hfit : fitsBuffer (ascii "HTTP/1.0 200 OK\r\n" ++ rest))
    (hno : ∀ l ∈ completeLines rest, ¬ HTTP_1_0 <+: l) :
    (call st ⟨true, ascii "HTTP/1.0 200 OK\r\n" ++ rest⟩ stack method uri mime payload
      response response_size).ret = 200 ∧
    ∃ s, (call st ⟨true, ascii "HTTP/1.0 200 OK\r\n" ++ rest⟩ stack method uri mime payload
        response response_size).scan = some s ∧
      s.nread = (ascii "HTTP/1.0 200 OK\r\n" ++ rest).length := by
  obtain ⟨hret, s, hs, _, hn⟩ :=
    (call_connected st stack _ method uri mime payload response response_size).2 hfit
  refine ⟨?_, s, hs, hn⟩
  rw [hret]
  have e : ascii "HTTP/1.0 200 OK\r\n" ++ rest = ascii "HTTP/1.0 200 OK\r" ++ 10 :: rest := by
    have : ascii "HTTP/1.0 200 OK\r\n" = ascii "HTTP/1.0 200 OK\r" ++ [10] := by decide
    rw [this]; simp
  have hl := (linesFrom_line (ascii "HTTP/1.0 200 OK\r") rest (by decide) []).1
  rw [completeLines, e, hl, List.foldl_cons]
  have h200 : lineStatus 0 ([] ++ ascii "HTTP/1.0 200 OK\r" ++ [10]) = 200 := by decide
  rw [h200]
  exact foldl_lineStatus_other _ 200
    (fun l hl' => ⟨linesFrom_end_lf rest [] l hl', hno l hl'⟩)

/-- Instance of `call_first_status_200`: headers and a body after the status
line. -/
theorem call_first_status_200_witness :
    (call init ⟨true, ascii "HTTP/1.0 200 OK\r\n" ++ ascii "Server: x\r\n\r\n[1, 2]"⟩ []
      (ascii "GET") (ascii "/") none none none 0).ret = 200 :=
  (call_first_status_200 init [] (ascii "Server: x\r\n\r\n[1, 2]") (ascii "GET") (ascii "/")
    none none none 0 (by decide) (by decide)).1

theorem scanStep_idx (s : ScanState) (b : Nat) (hf : s.buffer_full = false)
    (hi : s.idx < RESPONSE_BUFFER_SIZE) :
    ((scanStep s b).buffer_full = true ∧ (scanStep s b).idx = RESPONSE_BUFFER_SIZE) ∨
    ((scanStep s b).buffer_full = false ∧ (scanStep s b).idx < RESPONSE_BUFFER_SIZE) := by
  by_cases hcap : RESPONSE_BUFFER_SIZE ≤ s.idx + 1
  · left
    simp only [scanStep, ge_iff_le, hcap, if_true, true_and]
    omega
  · right
    simp only [scanStep, ge_iff_le, hcap, if_false]
    split
    · exact ⟨rfl, by simp [RESPONSE_BUFFER_SIZE]⟩
    · exact ⟨hf, by simp only; omega⟩

/-- When the receive loop ends with `buffer_full` set, `idx` is
`RESPONSE_BUFFER_SIZE`. -/
theorem scanLoop_full_idx (bs : List Nat) : ∀ s : ScanState,
    s.buffer_full = false → s.idx < RESPONSE_BUFFER_SIZE →
    (scanLoop s bs).buffer_full = true → (scanLoop s bs).idx = RESPONSE_BUFFER_SIZE := by
  induction bs with
  | nil =>
    intro s hf _ h
    simp only [scanLoop] at h
    rw [hf] at h
    exact absurd h (by decide)
  | cons b bs ih =>
    intro s hf hi h
    have hstep : scanLoop s (b :: bs) = scanLoop (scanStep s b) bs := by
      simp only [scanLoop, hf, Bool.false_eq_true, if_false]
    rw [hstep] at h ⊢
    rcases scanStep_idx s b hf hi with ⟨h1, h2⟩ | ⟨h1, h2⟩
    · rw [scanLoop_of_full _ _ h1]
      exact h2
    · exact ih _ h1 h2 h

/-- On every response in which 100 bytes arrive since the start or since the
previous line feed with no line feed among the first 99 of them, the receive
loop stops with `buffer_full` set, having read no byte after these 100, and the
statement `resp_buffer[idx] = 0` that follows stores at index
`RESPONSE_BUFFER_SIZE`, past the end of the array. -/
theorem overflow_stores_past_buffer (stack pre seg rest : List Nat)
    (hpre : pre = [] ∨ ∃ p, pre = p ++ [10])
    (hseg : seg.length = RESPONSE_BUFFER_SIZE) (hnolf : ∀ b ∈ seg.take 99, b ≠ 10) :
    (scanResponse stack (pre ++ seg ++ rest)).buffer_full = true ∧
    (scanResponse stack (pre ++ seg ++ rest)).nread ≤ pre.length + RESPONSE_BUFFER_SIZE ∧
    (scanResponse stack (pre ++ seg ++ rest)).idx = RESPONSE_BUFFER_SIZE ∧
    (scanResponse stack (pre ++ seg ++ rest)).writes.head? = some RESPONSE_BUFFER_SIZE := by
  have hnf := not_fits_of_long_run pre seg rest hpre hseg hnolf
  have hfull : (scanLoop (scanInit stack) (pre ++ seg ++ rest)).buffer_full = true := by
    cases hb : (scanLoop (scanInit stack) (pre ++ seg ++ rest)).buffer_full with
    | true => rfl
    | false =>
      have := (scanResponse_spec stack (pre ++ seg ++ rest)).1.mp
        (by simpa [scanResponse] using hb)
      exact absurd this hnf
  have hidx := scanLoop_full_idx (pre ++ seg ++ rest) (scanInit stack) rfl
    (by simp [scanInit, RESPONSE_BUFFER_SIZE]) hfull
  refine ⟨by simpa [scanResponse] using hfull, ?_, by simpa [scanResponse] using hidx, ?_⟩
  · have hnf' : ¬ fitsBuffer (pre ++ seg ++ []) := not_fits_of_long_run pre seg [] hpre hseg hnolf
    rw [List.append_nil] at hnf'
    have hfull' : (scanLoop (scanInit stack) (pre ++ seg)).buffer_full = true := by
      cases hb : (scanLoop (scanInit stack) (pre ++ seg)).buffer_full with
      | true => rfl
      | false =>
        have := (scanResponse_spec stack (pre ++ seg)).1.mp (by simpa [scanResponse] using hb)
        exact absurd this hnf'
    have hle := scanLoop_nread_le (pre ++ seg) (scanInit stack)
    simp only [scanResponse, scanLoop_append (pre ++ seg) rest, scanLoop_of_full _ rest hfull']
    simp only [scanInit, List.length_append, hseg, Nat.zero_add] at hle
    exact hle
  · simp only [scanResponse, List.head?_cons, hidx]

/-- C5 as stated fails: `-1` is also what `sscanf` stores for the status line
`"HTTP/1.0 -1"`; the response fits the scan buffer, the loop ends with
`buffer_full` clear, and `call` returns -1. -/
theorem call_minus_one_without_overflow :
    fitsBuffer (ascii "HTTP/1.0 -1\r\n") ∧
    (call init ⟨true, ascii "HTTP/1.0 -1\r\n"⟩ [] (ascii "GET") (ascii "/") none none none
      0).scan.map ScanState.buffer_full = some false ∧
    (call init ⟨true, ascii "HTTP/1.0 -1\r\n"⟩ [] (ascii "GET") (ascii "/") none none none
      0).ret = -1 := by
  decide

/-- C5 amended: if `call` returns -1 then the connection opened and either the
scan buffer overflowed (some line reached 100 bytes, `buffer_full` is set) or
some complete line begins with `"HTTP/1.0"` and its text at offset 9 is
converted by `sscanf` to -1; so a response that never fills the scan buffer and
has no such line never makes `call` return -1. -/
theorem call_minus_one (st : State) (net : Net) (stack method uri : List Nat)
    (mime payload response : Option (List Nat)) (response_size : Nat)
    (h : (call st net stack method uri mime payload response response_size).ret = -1) :
    net.connects = true ∧
    ((¬ fitsBuffer net.incoming ∧
        ∃ s, (call st net stack method uri mime payload response response_size).scan = some s ∧
          s.buffer_full = true) ∨
      ∃ l ∈ completeLines net.incoming, HTTP_1_0 <+: l ∧ sscanf_d (l.drop 9) 0 = (1, -1)) := by
  obtain ⟨connects, incoming⟩ := net
  cases connects with
  | false => simp [call] at h
  | true =>
    refine ⟨rfl, ?_⟩
    by_cases hf : fitsBuffer incoming
    · right
      have hret := ((call_connected st stack incoming method uri mime payload response
        response_size).2 hf).1
      rw [hret] at h
      rcases foldl_lineStatus_minus_one _ 0 (linesFrom_end_lf incoming []) h with h0 | hl
      · exact absurd h0 (by decide)
      · exact hl
    · left
      refine ⟨hf, _, call_scan st stack incoming method uri mime payload response response_size,
        ?_⟩
      cases hb : (scanResponse stack incoming).buffer_full with
      | true => rfl
      | false => exact absurd ((scanResponse_spec stack incoming).1.mp hb) hf

/-- Instance of `call_minus_one`: the response `"HTTP/1.0 -1\r\n"`. -/
theorem call_minus_one_witness :
    (call init ⟨true, ascii "HTTP/1.0 -1\r\n"⟩ [] (ascii "GET") (ascii "/") none none none
      0).ret = -1 ∧
    ∃ l ∈ completeLines (ascii "HTTP/1.0 -1\r\n"),
      HTTP_1_0 <+: l ∧ sscanf_d (l.drop 9) 0 = (1, -1) := by
  have hr : (call init ⟨true, ascii "HTTP/1.0 -1\r\n"⟩ [] (ascii "GET") (ascii "/") none none
      none 0).ret = -1 := by decide
  refine ⟨hr, ?_⟩
  rcases (call_minus_one init ⟨true, ascii "HTTP/1.0 -1\r\n"⟩ [] (ascii "GET") (ascii "/")
    none none none 0 hr).2 with ⟨hn, _⟩ | hl
  · exact absurd (by decide) hn
  · exact hl

/-- C6 fails on the code: with the response `"HTTP/1.0 200 OK\r\n\r\nhello"`
and a 4-byte output buffer (`response_size = 4`), `call` returns 200 and stores
exactly the four bytes `"hell"`: no NUL is written. -/
theorem call_output_unterminated :
    (call init ⟨true, ascii "HTTP/1.0 200 OK\r\n\r\nhello"⟩ [] (ascii "GET") (ascii "/") none
      none (some [1, 1, 1, 1]) 4).ret = 200 ∧
    (call init ⟨true, ascii "HTTP/1.0 200 OK\r\n\r\nhello"⟩ [] (ascii "GET") (ascii "/") none
      none (some [1, 1, 1, 1]) 4).stored = 4 ∧
    (call init ⟨true, ascii "HTTP/1.0 200 OK\r\n\r\nhello"⟩ [] (ascii "GET") (ascii "/") none
      none (some [1, 1, 1, 1]) 4).response = some (ascii "hell") ∧
    (0 : Nat) ∉ ascii "hell" := by
  decide

/-- C10: when `connect` fails, `call` returns 0, writes nothing to the
connection, leaves the caller's output buffer as it was (no byte stored), and
does not reach the receive loop, whatever the other arguments are. -/
theorem call_connect_failure (st : State) (stack incoming method uri : List Nat)
    (mime payload response : Option (List Nat)) (response_size : Nat) :
    call st ⟨false, incoming⟩ stack method uri mime payload response response_size
      = { ret := 0, sent := [], response := response, stored := 0, scan := none } := by
  simp [call]

/-! ## Claims about `setServer` and the status -/

/-- C12 fails on the code: `setServer(const char*)` hands the member `server`
(always `MAIN`) to the resolver and never looks at its argument.  On a fresh
client, `setServer(SANDBOX)` stores the address of `MAIN`, not the address the
resolver gives for `SANDBOX`; and `setServer` of a name the resolver does not
know still returns `true`. -/
theorem setServer_ignores_hostname :
    twoHostResolver SANDBOX = some [5, 6, 7, 8] ∧
    (setServerName twoHostResolver init SANDBOX).1 = true ∧
    (setServerName twoHostResolver init SANDBOX).2.server_ip = [1, 2, 3, 4] ∧
    mainOnlyResolver SANDBOX = none ∧
    (setServerName mainOnlyResolver init SANDBOX).1 = true ∧
    (setServerName mainOnlyResolver init SANDBOX).2.current_status = Status.NoLogin := by
  decide

theorem reachable_not_failure (resolve : List Nat → Option (List Nat)) (st : State)
    (h : Reachable resolve st) : st.current_status ≠ Status.Failure := by
  induction h with
  | fresh => decide
  | step st op _ ih =>
    cases op with
    | setServerIp ip => simp [applyOp, setServerIp]
    | setServerName name =>
      simp only [applyOp, setServerName]
      cases resolve st.server with
      | none => exact ih
      | some ip => simp
    | login user pass =>
      simp only [applyOp, login]
      split
      · split
        · simp
        · exact ih
      · exact ih
    | call _ _ _ _ _ _ _ _ => exact ih

/-- C13 as stated fails: after `setServer` by address and a successful `login`
the status is `Success`, and a further `setServer` by address sets it back to
`NoLogin`, an earlier stage. -/
theorem status_moves_back :
    Reachable mainOnlyResolver
      (applyOp mainOnlyResolver (applyOp mainOnlyResolver init (Op.setServerIp [10, 0, 0, 1]))
        (Op.login (ascii "user") (ascii "pass"))) ∧
    (applyOp mainOnlyResolver (applyOp mainOnlyResolver init (Op.setServerIp [10, 0, 0, 1]))
      (Op.login (ascii "user") (ascii "pass"))).current_status = Status.Success ∧
    (applyOp mainOnlyResolver
      (applyOp mainOnlyResolver (applyOp mainOnlyResolver init (Op.setServerIp [10, 0, 0, 1]))
        (Op.login (ascii "user") (ascii "pass")))
      (Op.setServerIp [10, 0, 0, 1])).current_status = Status.NoLogin ∧
    Status.NoLogin.rank < Status.Success.rank :=
  ⟨Reachable.step _ _ (Reachable.step _ _ Reachable.fresh), by decide, by decide, by decide⟩

/-- C13 amended: for every reachable client state and every public operation
with any arguments, the status after the operation is not earlier than the
status before it, unless the operation is a successful `setServer` (by address
or by name) on a client whose status is `Success`, which sets it to `NoLogin`. -/
theorem status_monotone_except_setServer (resolve : List Nat → Option (List Nat)) (st : State)
    (op : Op) (h : Reachable resolve st) :
    st.current_status.rank ≤ (applyOp resolve st op).current_status.rank ∨
    (((∃ ip, op = Op.setServerIp ip) ∨ (∃ name, op = Op.setServerName name)) ∧
      st.current_status = Status.Success ∧
      (applyOp resolve st op).current_status = Status.NoLogin) := by
  have hnf := reachable_not_failure resolve st h
  cases op with
  | setServerIp ip =>
    cases hs : st.current_status with
    | NoServerIp => left; simp [applyOp, setServerIp, Status.rank]
    | NoLogin => left; simp [applyOp, setServerIp, Status.rank]
    | Failure => exact absurd hs hnf
    | Success => right; exact ⟨Or.inl ⟨ip, rfl⟩, rfl, rfl⟩
  | setServerName name =>
    cases hr : resolve st.server with
    | none => left; simp [applyOp, setServerName, hr]
    | some ip =>
      cases hs : st.current_status with
      | NoServerIp => left; simp [applyOp, setServerName, hr, Status.rank]
      | NoLogin => left; simp [applyOp, setServerName, hr, Status.rank]
      | Failure => exact absurd hs hnf
      | Success =>
        right
        exact ⟨Or.inr ⟨name, rfl⟩, rfl, by simp [applyOp, setServerName, hr]⟩
  | login user pass =>
    left
    simp only [applyOp, login]
    split
    · split
      · cases hs : st.current_status <;> simp [Status.rank]
      · exact Nat.le_refl _
    · exact Nat.le_refl _
  | call _ _ _ _ _ _ _ _ => left; exact Nat.le_refl _

/-- Instance of `status_monotone_except_setServer`: a login on a client whose
address was set moves the status forward. -/
theorem status_monotone_except_setServer_witness :
    Reachable mainOnlyResolver (applyOp mainOnlyResolver init (Op.setServerIp [10, 0, 0, 1])) ∧
    Status.NoLogin.rank ≤ (applyOp mainOnlyResolver
      (applyOp mainOnlyResolver init (Op.setServerIp [10, 0, 0, 1]))
      (Op.login (ascii "user") (ascii "pass"))).current_status.rank := by
  have hr : Reachable mainOnlyResolver
      (applyOp mainOnlyResolver init (Op.setServerIp [10, 0, 0, 1])) :=
    Reachable.step _ _ Reachable.fresh
  refine ⟨hr, ?_⟩
  rcases status_monotone_except_setServer mainOnlyResolver _
    (Op.login (ascii "user") (ascii "pass")) hr with h | ⟨_, h, _⟩
  · exact h
  · exact absurd h (by decide)

/-- C15: for every client state and every 4-byte address `a`, `setServer(a)`
returns `true`, stores `a`, sets the status to `NoLogin` and leaves the
credentials and the host name alone; doing it twice gives the same result as
doing it once. -/
theorem setServerIp_idempotent (st : State) (a : List Nat) (ha : a.length = 4) :
    setServerIp (setServerIp st a).2 a = setServerIp st a ∧
    (setServerIp st a).1 = true ∧
    (setServerIp st a).2.server_ip = a ∧
    (setServerIp st a).2.current_status = Status.NoLogin ∧
    (setServerIp st a).2.login_details = st.login_details ∧
    (setServerIp st a).2.server = st.server := by
  match a, ha with
  | [a0, a1, a2, a3], _ =>
    refine ⟨rfl, rfl, ?_, rfl, rfl, rfl⟩
    simp [setServerIp, List.range, List.range.loop]

/-- Instance of `setServerIp_idempotent` on a logged-in client. -/
theorem setServerIp_idempotent_witness :
    setServerIp (setServerIp (login init (ascii "user") (ascii "pass")).2 [10, 0, 0, 1]).2
        [10, 0, 0, 1]
      = setServerIp (login init (ascii "user") (ascii "pass")).2 [10, 0, 0, 1] :=
  (setServerIp_idempotent _ [10, 0, 0, 1] (by decide)).1

/-! ## Claims about the request and the output of `call` -/

theorem call_sent (st : State) (stack incoming method uri : List Nat)
    (mime payload response : Option (List Nat)) (response_size : Nat) :
    (call st ⟨true, incoming⟩ stack method uri mime payload response response_size).sent
      = request st method uri mime payload := by
  simp only [call, Bool.not_true, Bool.false_eq_true, if_false]
  split
  · rfl
  · split
    · split <;> rfl
    · rfl

theorem printNum_eq_decimal (n : Nat) : printNum n = decimal n := rfl

/-- C14: on a connection that opens, whatever the response and whether or not a
login occurred, the bytes written are the request line, the `Authorization`
header with the stored credentials, then, only when a payload is present, the
`Content-Type` header with the MIME string and the `Content-Length` header with
the decimal length of the payload, then the blank line, then, only when a
payload is present, the payload bytes.  Without a payload the `mime` argument
is not used; with a payload it is the C string at `mime`.  A fresh client sends
empty credentials, and a logged-in client sending an 11-byte value sends
`Content-Length: 11`. -/
theorem call_request_wire (st : State) (stack incoming method uri : List Nat)
    (response : Option (List Nat)) (response_size : Nat) :
    (∀ mime : Option (List Nat),
      (call st ⟨true, incoming⟩ stack method uri mime none response response_size).sent
        = cstr method ++ ascii " " ++ cstr uri ++ ascii " HTTP/1.0\r\n"
          ++ ascii "Authorization: Basic " ++ cstr st.login_details ++ ascii "\r\n"
          ++ ascii "\r\n") ∧
    (∀ m p : List Nat,
      (call st ⟨true, incoming⟩ stack method uri (some m) (some p) response response_size).sent
        = cstr method ++ ascii " " ++ cstr uri ++ ascii " HTTP/1.0\r\n"
          ++ ascii "Authorization: Basic " ++ cstr st.login_details ++ ascii "\r\n"
          ++ ascii "Content-Type: " ++ cstr m ++ ascii "\r\n"
          ++ ascii "Content-Length: " ++ decimal (cstr p).length ++ ascii "\r\n"
          ++ ascii "\r\n" ++ cstr p) ∧
    (∀ m p : List Nat,
      (call st ⟨true, incoming⟩ stack method uri (some m) (some p) response response_size).sent
        = wireFormat (cstr method) (cstr uri) (cstr st.login_details) (some (cstr m, cstr p))) ∧
    (∀ mime : Option (List Nat),
      (call st ⟨true, incoming⟩ stack method uri mime none response response_size).sent
        = wireFormat (cstr method) (cstr uri) (cstr st.login_details) none) ∧
    (call init ⟨true, incoming⟩ stack (ascii "GET") (ascii "/x") none none response
        response_size).sent
      = ascii "GET /x HTTP/1.0\r\nAuthorization: Basic \r\n\r\n" ∧
    (call (login init (ascii "user") (ascii "pass")).2 ⟨true, incoming⟩ stack (ascii "PUT")
        (ascii "/x") (some SIMPLE_DATA) (some (ascii "12345678901")) response response_size).sent
      = ascii ("PUT /x HTTP/1.0\r\nAuthorization: Basic dXNlcjpwYXNz\r\n"
          ++ "Content-Type: application/vnd.fluiddb.value+json\r\n"
          ++ "Content-Length: 11\r\n\r\n12345678901") ∧
    decimal 0 = ascii "0" ∧ decimal 11 = ascii "11" ∧ decimal 1024 = ascii "1024" := by
  have hcr : ascii "\r\n" = CRLF := by decide
  have hh : ascii " HTTP/1.0\r\n" = ascii " HTTP/1.0" ++ CRLF := by decide
  have hnone : ∀ mime : Option (List Nat),
      (call st ⟨true, incoming⟩ stack method uri mime none response response_size).sent
        = cstr method ++ ascii " " ++ cstr uri ++ ascii " HTTP/1.0\r\n"
          ++ ascii "Authorization: Basic " ++ cstr st.login_details ++ ascii "\r\n"
          ++ ascii "\r\n" := by
    intro mime
    rw [call_sent]
    simp only [request, hcr, hh, List.append_assoc, List.append_nil, List.nil_append]
  have hsome : ∀ m p : List Nat,
      (call st ⟨true, incoming⟩ stack method uri (some m) (some p) response response_size).sent
        = cstr method ++ ascii " " ++ cstr uri ++ ascii " HTTP/1.0\r\n"
          ++ ascii "Authorization: Basic " ++ cstr st.login_details ++ ascii "\r\n"
          ++ ascii "Content-Type: " ++ cstr m ++ ascii "\r\n"
          ++ ascii "Content-Length: " ++ decimal (cstr p).length ++ ascii "\r\n"
          ++ ascii "\r\n" ++ cstr p := by
    intro m p
    rw [call_sent]
    simp only [request, printStr, hcr, hh, printNum_eq_decimal, List.append_assoc]
  refine ⟨hnone, hsome, ?_, ?_, ?_, ?_, by decide, by decide, by decide⟩
  · intro m p
    rw [hsome]
    simp only [wireFormat, List.append_assoc]
  · intro mime
    rw [hnone]
    simp only [wireFormat, List.append_assoc, List.append_nil, List.nil_append]
  · rw [call_sent]
    decide
  · rw [call_sent]
    decide

/-- C16 fails on the code: for the line `"HTTP/1.0\r\n"` the text at offset 9
is only white space, `sscanf` returns `EOF` (-1), the test `!sscanf(...)` is
false and `ret` keeps the status of the earlier line: `call` returns 200, not 0. -/
theorem call_blank_status_keeps_ret :
    HTTP_1_0 <+: ascii "HTTP/1.0\r\n" ∧
    (sscanf_d ((ascii "HTTP/1.0\r\n" ++ [0]).drop 9) 200).1 = EOF ∧
    lineStatus 200 (ascii "HTTP/1.0\r\n") = 200 ∧
    (call init ⟨true, ascii "HTTP/1.0 200 OK\r\n" ++ ascii "HTTP/1.0\r\n"⟩ [] (ascii "GET")
      (ascii "/") none none none 0).ret = 200 := by
  decide

/-- C17 fails on the code: when 100 bytes arrive without a line feed the loop
ends with `idx = 100`, and the final `resp_buffer[idx] = 0` stores at index
100, one past the last cell of the 100-byte array. -/
theorem scan_terminator_out_of_bounds :
    RESPONSE_BUFFER_SIZE = 100 ∧
    (scanResponse [] (List.replicate 100 65)).buffer_full = true ∧
    (scanResponse [] (List.replicate 100 65)).idx = 100 ∧
    (scanResponse [] (List.replicate 100 65)).writes.head? = some 100 := by
  decide

/-- After a response that fits, the scan buffer holds the trailing fragment
followed by the NUL stored at `idx`. -/
theorem scanResponse_buffer (stack incoming : List Nat) (hfit : fitsBuffer incoming) :
    ∃ junk, (scanResponse stack incoming).resp_buffer = lastFragment incoming ++ 0 :: junk := by
  have h := scanLoop_sim incoming (scanInit stack) [] rfl (freshBuffer_length stack) rfl rfl
    (by simp [RESPONSE_BUFFER_SIZE])
  have hnf := h.1.mpr hfit
  obtain ⟨_, r2, r3, _⟩ := h.2 hnf
  have hlen := scanLoop_length incoming (scanInit stack)
  have hfl : (fragmentFrom [] incoming).length < RESPONSE_BUFFER_SIZE := hfit.2
  have hb : (scanInit stack).resp_buffer.length = RESPONSE_BUFFER_SIZE := freshBuffer_length stack
  refine ⟨(scanLoop (scanInit stack) incoming).resp_buffer.drop
    ((scanLoop (scanInit stack) incoming).idx + 1), ?_⟩
  simp only [scanResponse, lastFragment]
  rw [set_eq_append _ _ _ (by rw [hlen, hb, r2]; exact hfl), r3]

theorem fragmentFrom_append_lf (p : List Nat) : ∀ cur : List Nat,
    fragmentFrom cur (p ++ [10]) = [] := by
  induction p with
  | nil => intro cur; simp [fragmentFrom]
  | cons x xs ih =>
    intro cur
    simp only [List.cons_append, fragmentFrom]
    split
    · exact ih []
    · exact ih _

theorem strncpyBytes_junk (a junk : List Nat) (n : Nat) :
    strncpyBytes (a ++ 0 :: junk) n = strncpyBytes a n := by
  simp only [strncpyBytes, cstr_append_nul_any]

theorem strncpyBytes_eq (a : List Nat) (n : Nat) :
    strncpyBytes a n = (cstr a).take n ++ List.replicate (n - (cstr a).length) 0 ∧
    (strncpyBytes a n).length = n := by
  constructor
  · simp only [strncpyBytes, List.take_append_eq_append_take, List.take_replicate]
    congr 2
    omega
  · simp only [strncpyBytes, List.length_take, List.length_append, List.length_replicate]
    omega

/-- C11: for every response that does not overflow, with a non-null output
buffer and `response_size > 0`, `call` stores exactly `response_size` bytes at
the start of the buffer and leaves the rest alone: the bytes received after the
last line feed up to their first NUL, cut at `response_size`, then NULs up to
`response_size`; a response that ends with a line feed gives only NULs, the
empty string. -/
theorem call_output (st : State) (stack incoming method uri dst : List Nat)
    (mime payload : Option (List Nat)) (response_size : Nat)
    (hfit : fitsBuffer incoming) (hsize : 0 < response_size) :
    (call st ⟨true, incoming⟩ stack method uri mime payload (some dst) response_size).response
      = some (((cstr (lastFragment incoming)).take response_size
          ++ List.replicate (response_size - (cstr (lastFragment incoming)).length) 0)
          ++ dst.drop response_size) ∧
    (call st ⟨true, incoming⟩ stack method uri mime payload (some dst) response_size).stored
      = response_size ∧
    ((cstr (lastFragment incoming)).take response_size
      ++ List.replicate (response_size - (cstr (lastFragment incoming)).length) 0).length
      = response_size ∧
    (∀ p, incoming = p ++ [10] →
      (call st ⟨true, incoming⟩ stack method uri mime payload (some dst) response_size).response
        = some (List.replicate response_size 0 ++ dst.drop response_size)) := by
  have hnf := (scanResponse_spec stack incoming).1.mpr hfit
  obtain ⟨junk, hbuf⟩ := scanResponse_buffer stack incoming hfit
  obtain ⟨he, hl⟩ := strncpyBytes_eq (lastFragment incoming) response_size
  have hresp : (call st ⟨true, incoming⟩ stack method uri mime payload (some dst)
      response_size).response
      = some (strncpyBytes (lastFragment incoming) response_size ++ dst.drop response_size) := by
    simp only [call, Bool.not_true, Bool.false_eq_true, if_false, hnf, gt_iff_lt, hsize, if_true,
      strncpy, hbuf, strncpyBytes_junk]
  refine ⟨by rw [hresp, he], ?_, by rw [← he]; exact hl, ?_⟩
  · simp only [call, Bool.not_true, Bool.false_eq_true, if_false, hnf, gt_iff_lt, hsize, if_true]
  · intro p hp
    rw [hresp]
    have hf : lastFragment incoming = [] := by
      rw [hp]; exact fragmentFrom_append_lf p []
    rw [hf]
    simp [strncpyBytes, cstr]

/-- Instance of `call_output`: the fragment `"hello"` in an 8-byte buffer. -/
theorem call_output_witness :
    (call init ⟨true, ascii "HTTP/1.0 200 OK\r\n\r\nhello"⟩ [] (ascii "GET") (ascii "/") none
      none (some (List.replicate 10 1)) 8).response
      = some (ascii "hello" ++ [0, 0, 0] ++ [1, 1]) := by
  have h := (call_output init [] (ascii "HTTP/1.0 200 OK\r\n\r\nhello") (ascii "GET") (ascii "/")
    (List.replicate 10 1) none none 8 (by decide) (by decide)).1
  rw [h]
  decide

/-! ## Bounds on what `mimeEncode` writes -/

theorem readChar_lt (inp : List Nat) (k : Nat) (h : readChar inp k ≠ 0) : k < inp.length := by
  by_contra hk
  have e : inp.getD k 0 = 0 := by
    simp [List.getD_eq_getElem?_getD, List.getElem?_eq_none (Nat.le_of_not_lt hk)]
  apply h
  rw [readChar, e]
  decide

theorem mimeLoop_stop (fuel : Nat) (inp : List Nat) (s : MimeState)
    (h : readChar inp s.i = 0) : mimeLoop fuel inp s = s := by
  cases fuel with
  | zero => rfl
  | succ n => simp [mimeLoop, h]

/-- An iteration either consumes three bytes, none of them NUL, or it leaves
`i` at the NUL it met. -/
theorem mimeGroup_i_cases (inp : List Nat) (s : MimeState) :
    ((mimeGroup inp s).i = s.i + 3 ∧ readChar inp (s.i + 1) ≠ 0 ∧ readChar inp (s.i + 2) ≠ 0) ∨
    (readChar inp (mimeGroup inp s).i = 0 ∧ (mimeGroup inp s).i ≤ s.i + 2) := by
  by_cases h1 : readChar inp (s.i + 1) = 0
  · have hi : (mimeGroup inp s).i = s.i + 1 := by
      simp only [mimeGroup, h1, ne_eq, not_true_eq_false, if_false]
    right
    rw [hi]
    exact ⟨h1, by omega⟩
  · by_cases h2 : readChar inp (s.i + 1 + 1) = 0
    · have hi : (mimeGroup inp s).i = s.i + 1 + 1 := by
        simp only [mimeGroup, h1, h2, ne_eq, not_true_eq_false, not_false_eq_true, if_false,
          if_true]
      right
      rw [hi]
      exact ⟨h2, by omega⟩
    · have hi : (mimeGroup inp s).i = s.i + 3 := by
        simp only [mimeGroup, h1, h2, ne_eq, not_false_eq_true, if_true]
      left
      exact ⟨hi, h1, h2⟩

/-- The loop writes at most four characters for every three bytes left in the
input. -/
theorem mimeLoop_j_le (fuel : Nat) : ∀ (inp : List Nat) (s : MimeState),
    (mimeLoop fuel inp s).j ≤ s.j + 4 * ((inp.length - s.i + 2) / 3) := by
  induction fuel with
  | zero => intro inp s; simp [mimeLoop]
  | succ n ih =>
    intro inp s
    rw [mimeLoop]
    split
    · rename_i hc
      have hi := readChar_lt inp s.i hc.2
      rcases mimeGroup_i_cases inp s with ⟨h3, _, h2⟩ | ⟨hz, _⟩
      · have := ih inp (mimeGroup inp s)
        have h2' := readChar_lt inp (s.i + 2) h2
        rw [h3, mimeGroup_j] at this
        omega
      · rw [mimeLoop_stop n inp _ hz, mimeGroup_j]
        omega
    · omega

theorem mimeLoop_j_ge (fuel : Nat) : ∀ (inp : List Nat) (s : MimeState),
    s.j ≤ (mimeLoop fuel inp s).j := by
  induction fuel with
  | zero => intro inp s; simp [mimeLoop]
  | succ n ih =>
    intro inp s
    rw [mimeLoop]
    split
    · have := ih inp (mimeGroup inp s)
      rw [mimeGroup_j] at this
      omega
    · exact Nat.le_refl _

/-- Every index stored to by the loop is below the final `j`. -/
theorem mimeLoopWrites_lt (fuel : Nat) : ∀ (inp : List Nat) (s : MimeState),
    ∀ k ∈ mimeLoopWrites fuel inp s, k < (mimeLoop fuel inp s).j := by
  induction fuel with
  | zero => intro inp s k hk; simp [mimeLoopWrites] at hk
  | succ n ih =>
    intro inp s k hk
    rw [mimeLoopWrites] at hk
    rw [mimeLoop]
    split
    · rename_i hc
      rw [if_pos hc] at hk
      have hge := mimeLoop_j_ge n inp (mimeGroup inp s)
      rw [mimeGroup_j] at hge
      simp only [List.cons_append, List.nil_append, List.mem_cons] at hk
      rcases hk with rfl | rfl | rfl | rfl | hk
      · omega
      · omega
      · omega
      · omega
      · exact ih inp _ k hk
    · rename_i hc
      rw [if_neg hc] at hk
      simp at hk

theorem mimeLoop_length (fuel : Nat) : ∀ (inp : List Nat) (s : MimeState),
    (mimeLoop fuel inp s).out.length = s.out.length := by
  induction fuel with
  | zero => intro inp s; rfl
  | succ n ih =>
    intro inp s
    rw [mimeLoop]
    split
    · rw [ih, mimeGroup_length]
    · rfl

theorem mimeLoopWrites_congr (fuel : Nat) : ∀ (inp inp' : List Nat) (s : MimeState),
    (∀ k, inp.getD k 0 = inp'.getD k 0) →
    mimeLoopWrites fuel inp s = mimeLoopWrites fuel inp' s := by
  induction fuel with
  | zero => intro inp inp' s _; rfl
  | succ n ih =>
    intro inp inp' s h
    have e0 : readChar inp s.i = readChar inp' s.i := by simp only [readChar, h]
    have eg := mimeGroup_congr inp inp' s (fun k _ => h k)
    rw [mimeLoopWrites, mimeLoopWrites, e0, eg, ih inp inp' _ h]

theorem cstr_length_le_of_set (l : List Nat) (j : Nat) (h : j < l.length) :
    (cstr (l.set j 0)).length ≤ j := by
  rw [set_eq_append l j 0 h, cstr_append_nul_any]
  have hp := cstr_prefix (l.take j)
  have h1 : (cstr (l.take j)).length ≤ (l.take j).length := hp.length_le
  have h2 : (l.take j).length ≤ j := by rw [List.length_take]; omega
  omega

/-! ## Claim about the credentials field -/

/-- C18: on a client whose `login_details` field has its 64 bytes, every index
`login` stores to in that field is below 64; and whenever `login` runs the
encoder, the staged `user:pass` string has at most 39 bytes, the encoder stops
at `j ≤ 52`, every index stored to is at most 52, and the stored credentials
have at most 52 characters before their NUL. -/
theorem login_writes_in_field (st : State) (user pass : List Nat)
    (hd : st.login_details.length = 64) :
    (∀ k ∈ loginWrites st user pass, k < 64) ∧
    ((snprintf_login 40 user pass).1 < 40 →
      (cstr (snprintf_login 40 user pass).2).length ≤ 39 ∧
      (mimeEncode (snprintf_login 40 user pass).2 st.login_details).j ≤ 52 ∧
      (∀ k ∈ loginWrites st user pass, k ≤ 52) ∧
      (cstr (login st user pass).2.login_details).length ≤ 52) := by
  have main : (snprintf_login 40 user pass).1 < 40 →
      (cstr (snprintf_login 40 user pass).2).length ≤ 39 ∧
      (mimeEncode (snprintf_login 40 user pass).2 st.login_details).j ≤ 52 ∧
      (∀ k ∈ loginWrites st user pass, k ≤ 52) ∧
      (cstr (login st user pass).2.login_details).length ≤ 52 := by
    intro hrun
    have htl : (cstr user ++ 58 :: cstr pass).length < 40 := hrun
    have htake : (cstr user ++ 58 :: cstr pass).take (40 - 1) = cstr user ++ 58 :: cstr pass :=
      List.take_of_length_le (by omega)
    have hnz : ∀ x ∈ cstr user ++ 58 :: cstr pass, x ≠ 0 := by
      intro x hx
      simp only [List.mem_append, List.mem_cons] at hx
      rcases hx with h | rfl | h
      · exact cstr_ne_zero user x h
      · decide
      · exact cstr_ne_zero pass x h
    have hin : (snprintf_login 40 user pass).2 = (cstr user ++ 58 :: cstr pass) ++ [0] := by
      simp only [snprintf_login, htake]
    have hloop := mimeLoop_congr 16 ((cstr user ++ 58 :: cstr pass) ++ [0])
      (cstr user ++ 58 :: cstr pass) { i := 0, j := 0, out := st.login_details }
      (fun k _ => getD_append_nul _ k)
    have hj := mimeLoop_j_le 16 (cstr user ++ 58 :: cstr pass)
      { i := 0, j := 0, out := st.login_details }
    simp only [Nat.zero_add, Nat.sub_zero] at hj
    have hj52 : (mimeLoop 16 ((cstr user ++ 58 :: cstr pass) ++ [0])
        { i := 0, j := 0, out := st.login_details }).j ≤ 52 := by
      rw [hloop]; omega
    have hlen := mimeLoop_length 16 ((cstr user ++ 58 :: cstr pass) ++ [0])
      { i := 0, j := 0, out := st.login_details }
    refine ⟨?_, ?_, ?_, ?_⟩
    · rw [hin, cstr_append_nul _ _ hnz]; omega
    · rw [hin]; exact hj52
    · intro k hk
      simp only [loginWrites, hrun, if_true, mimeEncodeWrites, hin, List.mem_append,
        List.mem_singleton] at hk
      rcases hk with hk | rfl
      · have := mimeLoopWrites_lt 16 _ _ k hk
        omega
      · exact hj52
    · have hout : (login st user pass).2.login_details
          = (mimeEncode ((cstr user ++ 58 :: cstr pass) ++ [0]) st.login_details).out := by
        simp only [login, hrun, if_true, hin]
        split <;> rfl
      rw [hout]
      simp only [mimeEncode]
      have hlt : (mimeLoop 16 ((cstr user ++ 58 :: cstr pass) ++ [0])
          { i := 0, j := 0, out := st.login_details }).j
          < (mimeLoop 16 ((cstr user ++ 58 :: cstr pass) ++ [0])
            { i := 0, j := 0, out := st.login_details }).out.length := by
        rw [hlen]
        show _ < st.login_details.length
        rw [hd]
        omega
      have := cstr_length_le_of_set _ _ hlt
      omega
  refine ⟨?_, main⟩
  intro k hk
  by_cases hrun : (snprintf_login 40 user pass).1 < 40
  · have := (main hrun).2.2.1 k hk
    omega
  · simp [loginWrites, hrun] at hk

/-- Instance of `login_writes_in_field`: the longest accepted pair, 19 and 19
bytes, on a fresh client. -/
theorem login_writes_in_field_witness :
    (∀ k ∈ loginWrites init (List.replicate 19 97) (List.replicate 19 98), k < 64) ∧
    (cstr (login init (List.replicate 19 97) (List.replicate 19 98)).2.login_details).length
      ≤ 52 :=
  have h := login_writes_in_field init (List.replicate 19 97) (List.replicate 19 98) (by decide)
  ⟨h.1, (h.2 (by decide)).2.2.2⟩

/-! ## The exact count of characters written by `mimeEncode` -/

theorem readChar_of_drop_cons (inp : List Nat) (k a : Nat) (r : List Nat)
    (h : inp.drop k = a :: r) : readChar inp k = sext8 a ∧ inp.drop (k + 1) = r := by
  obtain ⟨e, hd⟩ := getD_of_drop_cons inp k a r h
  exact ⟨by rw [readChar, e], hd⟩

theorem readChar_of_drop_nil (inp : List Nat) (k : Nat) (h : inp.drop k = []) :
    readChar inp k = 0 := by
  rw [readChar, getD_of_drop_nil inp k h]
  decide

theorem mimeGroup_i_one (inp : List Nat) (s : MimeState) (h1 : readChar inp (s.i + 1) = 0) :
    (mimeGroup inp s).i = s.i + 1 := by
  simp only [mimeGroup, h1, ne_eq, not_true_eq_false, if_false]

theorem mimeGroup_i_two (inp : List Nat) (s : MimeState) (h1 : readChar inp (s.i + 1) ≠ 0)
    (h2 : readChar inp (s.i + 2) = 0) : (mimeGroup inp s).i = s.i + 2 := by
  simp only [mimeGroup, h1, h2, ne_eq, not_true_eq_false, not_false_eq_true, if_false, if_true]

/-- On input without NUL, below the cap, the loop consumes all the bytes `r`
left and writes four characters for every group of up to three bytes. -/
theorem mimeLoop_ij (fuel : Nat) : ∀ (inp : List Nat) (s : MimeState) (r : List Nat),
    inp.drop s.i = r → (∀ b ∈ r, sext8 b ≠ 0) → (r.length + 2) / 3 ≤ fuel →
    s.j + 4 * ((r.length + 2) / 3) ≤ 64 →
    (mimeLoop fuel inp s).i = s.i + r.length ∧
    (mimeLoop fuel inp s).j = s.j + 4 * ((r.length + 2) / 3) := by
  induction fuel with
  | zero =>
    intro inp s r hd _ hf _
    have hr : r = [] := by
      cases r with
      | nil => rfl
      | cons x xs => simp at hf; omega
    subst hr
    simp [mimeLoop]
  | succ n ih =>
    intro inp s r hd hnz hf hj
    match r, hd, hnz, hf, hj with
    | [], hd, _, _, _ =>
      rw [mimeLoop_done _ _ _ hd]
      simp
    | [a], hd, hnz, _, hj =>
      obtain ⟨e0, hd1⟩ := readChar_of_drop_cons inp s.i a _ hd
      have e1 := readChar_of_drop_nil inp (s.i + 1) hd1
      have c : s.j < 64 ∧ readChar inp s.i ≠ 0 :=
        ⟨by simp only [List.length_cons, List.length_nil] at hj; omega,
          by rw [e0]; exact hnz a (by simp)⟩
      rw [mimeLoop, if_pos c]
      have hi := mimeGroup_i_one inp s e1
      rw [mimeLoop_done _ _ _ (by rw [hi]; exact hd1), hi, mimeGroup_j]
      simp
    | [a, b], hd, hnz, _, hj =>
      obtain ⟨e0, hd1⟩ := readChar_of_drop_cons inp s.i a _ hd
      obtain ⟨e1, hd2⟩ := readChar_of_drop_cons inp (s.i + 1) b _ hd1
      have e2 := readChar_of_drop_nil inp (s.i + 2) hd2
      have c : s.j < 64 ∧ readChar inp s.i ≠ 0 :=
        ⟨by simp only [List.length_cons, List.length_nil] at hj; omega,
          by rw [e0]; exact hnz a (by simp)⟩
      rw [mimeLoop, if_pos c]
      have hi := mimeGroup_i_two inp s (by rw [e1]; exact hnz b (by simp)) e2
      rw [mimeLoop_done _ _ _ (by rw [hi]; exact hd2), hi, mimeGroup_j]
      simp
    | a :: b :: c :: r', hd, hnz, hf, hj =>
      obtain ⟨e0, hd1⟩ := readChar_of_drop_cons inp s.i a _ hd
      obtain ⟨e1, hd2⟩ := readChar_of_drop_cons inp (s.i + 1) b _ hd1
      obtain ⟨e2, hd3⟩ := readChar_of_drop_cons inp (s.i + 2) c _ hd2
      have hlen : ((a :: b :: c :: r').length + 2) / 3 = (r'.length + 2) / 3 + 1 := by
        simp only [List.length_cons]; omega
      rw [hlen] at hf hj
      have cnd : s.j < 64 ∧ readChar inp s.i ≠ 0 :=
        ⟨by omega, by rw [e0]; exact hnz a (by simp)⟩
      rw [mimeLoop, if_pos cnd]
      have hi := mimeGroup_i_full inp s (by rw [e1]; exact hnz b (by simp))
        (by rw [e2]; exact hnz c (by simp))
      have hjg := mimeGroup_j inp s
      obtain ⟨r1, r2⟩ := ih inp (mimeGroup inp s) r' (by rw [hi]; exact hd3)
        (fun x hx => hnz x (by simp [hx])) (by omega) (by omega)
      rw [r1, r2, hi, hjg, hlen]
      simp only [List.length_cons]
      omega

/-! ## Claim about the success flag of `mimeEncode` -/

/-- C19: for every string of `L` bytes (none NUL), `mimeEncode` returns `true`
if and only if it wrote fewer than 64 characters (`j < 64`), and `j` is
`4 * ceil(min(L, 48) / 3)`, so the flag is `true` if and only if `L ≤ 45`; an
input of 46 to 48 bytes is consumed in full, gives 64 characters and `false`,
and for 7-bit bytes these 64 characters are its complete Base64 text. -/
theorem mimeEncode_flag_threshold (inp out : List Nat) (hb : ∀ b ∈ inp, 1 ≤ b ∧ b < 256) :
    ((mimeEncode inp out).ret = true ↔ (mimeEncode inp out).j < 64) ∧
    (mimeEncode inp out).j = 4 * ((min inp.length 48 + 2) / 3) ∧
    ((mimeEncode inp out).ret = true ↔ inp.length ≤ 45) ∧
    (46 ≤ inp.length → inp.length ≤ 48 →
      (mimeEncode inp out).ret = false ∧ (mimeEncode inp out).i = inp.length ∧
      (mimeEncode inp out).j = 64 ∧
      ((∀ b ∈ inp, b ≤ 127) → 65 ≤ out.length →
        (mimeEncode inp out).out = base64Encode inp ++ 0 :: out.drop 65)) := by
  have hnz : ∀ b ∈ inp.take 48, sext8 b ≠ 0 := by
    intro b hm
    have := hb b (List.mem_of_mem_take hm)
    exact sext8_ne_zero b (by omega) this.2
  have hl : (inp.take 48).length = min inp.length 48 := by
    rw [List.length_take]; exact Nat.min_comm _ _
  obtain ⟨hi, hj⟩ := mimeLoop_ij 16 (inp.take 48) { i := 0, j := 0, out := out } (inp.take 48)
    rfl hnz (by rw [hl]; omega) (by rw [hl]; simp only; omega)
  simp only [Nat.zero_add, hl] at hi hj
  have hret : (mimeEncode inp out).ret = true ↔ (mimeEncode inp out).j < 64 := by
    simp [mimeEncode]
  have hjj : (mimeEncode inp out).j = 4 * ((min inp.length 48 + 2) / 3) := by
    rw [mimeEncode_take]; simp only [mimeEncode, hj]
  have hii : (mimeEncode inp out).i = min inp.length 48 := by
    rw [mimeEncode_take]; simp only [mimeEncode, hi]
  refine ⟨hret, hjj, ?_, ?_⟩
  · rw [hret, hjj]
    omega
  · intro h46 h48
    refine ⟨?_, ?_, ?_, ?_⟩
    · cases hr : (mimeEncode inp out).ret with
      | false => rfl
      | true =>
        have := hret.mp hr
        rw [hjj] at this
        omega
    · rw [hii]; omega
    · rw [hjj]; omega
    · intro h7 hcap
      have h7' : ∀ b ∈ inp, 1 ≤ b ∧ b < 128 := fun b hm =>
        ⟨(hb b hm).1, by have := h7 b hm; omega⟩
      rw [mimeEncode_seven_bit inp out h7' h48 (by omega)]
      have e : 4 * ((inp.length + 2) / 3) + 1 = 65 := by omega
      simp only [e]

/-- Instance of `mimeEncode_flag_threshold`: 45 bytes give `true`, 46 bytes give
`false`. -/
theorem mimeEncode_flag_threshold_witness :
    (mimeEncode (List.replicate 45 66) (List.replicate 65 7)).ret = true ∧
    (mimeEncode (List.replicate 46 66) (List.replicate 65 7)).ret = false :=
  ⟨(mimeEncode_flag_threshold (List.replicate 45 66) (List.replicate 65 7)
      (by decide)).2.2.1.mpr (by decide),
   ((mimeEncode_flag_threshold (List.replicate 46 66) (List.replicate 65 7)
      (by decide)).2.2.2 (by decide) (by decide)).1⟩

/-! ## Claim about the line that decides the result of `call` -/

theorem toInt_of_range (x : Int) (h1 : INT_MIN ≤ x) (h2 : x ≤ INT_MAX) : toInt x = x := by
  simp only [INT_MIN, INT_MAX] at h1 h2
  simp only [toInt, ofU16, toU16]
  have hm : 0 ≤ x % 65536 := Int.emod_nonneg x (by decide)
  have hlt : x % 65536 < 65536 := Int.emod_lt_of_pos x (by decide)
  have e : (((x % 65536).toNat % 65536 : Nat) : Int) = x % 65536 := by
    have h3 : (x % 65536).toNat % 65536 = (x % 65536).toNat := Nat.mod_eq_of_lt (by omega)
    rw [h3, Int.toNat_of_nonneg hm]
  have hc : ((x % 65536).toNat % 65536 < 32768) ↔ x % 65536 < 32768 := by
    constructor
    · intro h; omega
    · intro h; omega
  simp only [hc, e]
  split <;> omega

theorem takeWhile_isdigit_cstr (l : List Nat) :
    (cstr l).takeWhile isdigit = l.takeWhile isdigit := by
  induction l with
  | nil => rfl
  | cons x xs ih =>
    simp only [cstr] at ih
    by_cases hx : x = 0
    · subst hx
      simp [cstr, isdigit]
    · by_cases hd : isdigit x = true
      · simp [cstr, hx, hd, ih]
      · simp [cstr, hx, hd]

theorem isdigit_facts (c : Nat) (h : isdigit c = true) :
    c ≠ 0 ∧ isspace c = false ∧ c ≠ 45 ∧ c ≠ 43 := by
  simp only [isdigit, Bool.and_eq_true, decide_eq_true_eq] at h
  refine ⟨by omega, ?_, by omega, by omega⟩
  simp only [isspace, Bool.or_eq_false_iff, Bool.and_eq_false_iff, beq_eq_false_iff_ne,
    decide_eq_false_iff_not]
  constructor
  · omega
  · right; omega

/-- When a decimal integer stands at offset 9 of a line, `sscanf` converts it:
the count is 1 and the value stored is that integer, as an `int`. -/
theorem sscanf_d_decimal (l : List Nat) (n r : Int) (h : decimalAt9 l = some n) :
    sscanf_d (l.drop 9) r = (1, toInt n) := by
  simp only [decimalAt9] at h
  cases hx : l.drop 9 with
  | nil => rw [hx] at h; simp at h
  | cons c cs =>
    rw [hx] at h
    simp only at h
    by_cases hc : c = 45
    · subst hc
      simp only [if_true] at h
      by_cases hd : cs.takeWhile isdigit = []
      · simp [hd] at h
      · simp only [hd, if_false, Option.some.injEq] at h
        have hcs : cstr (45 :: cs) = 45 :: cstr cs := by simp [cstr]
        have hsp : (45 :: cstr cs).dropWhile isspace = 45 :: cstr cs := by
          simp [List.dropWhile, isspace]
        simp only [sscanf_d, hcs, hsp, beq_self_eq_true, Bool.true_or, if_true,
          takeWhile_isdigit_cstr, hd, if_false, h]
    · simp only [hc, if_false] at h
      by_cases hd : (c :: cs).takeWhile isdigit = []
      · simp [hd] at h
      · simp only [hd, if_false, Option.some.injEq] at h
        have hdig : isdigit c = true := by
          by_contra hn
          apply hd
          simp [List.takeWhile, hn]
        obtain ⟨h0, hsp0, _, h43⟩ := isdigit_facts c hdig
        have hcs : cstr (c :: cs) = c :: cstr cs := by simp [cstr, h0]
        have hsp : (c :: cstr cs).dropWhile isspace = c :: cstr cs := by
          simp [List.dropWhile, hsp0]
        have hb1 : (c == 45) = false := by simpa using hc
        have hb2 : (c == 43) = false := by simpa using h43
        have htw : (c :: cstr cs).takeWhile isdigit = (c :: cs).takeWhile isdigit := by
          have := takeWhile_isdigit_cstr (c :: cs)
          rw [hcs] at this
          exact this
        simp only [sscanf_d, hcs, hsp, hb1, hb2, Bool.or_self, Bool.false_eq_true, if_false, htw,
          hd, h]

/-- A complete line that begins with `"HTTP/1.0"` and has the `int` value `n`
written at offset 9 sets `ret` to `n`, whatever `ret` was. -/
theorem lineStatus_decimal (c : List Nat) (n r : Int) (hp : HTTP_1_0 <+: (c ++ [10]))
    (hn : decimalAt9 (c ++ [10]) = some n) (h1 : INT_MIN ≤ n) (h2 : n ≤ INT_MAX) :
    lineStatus r (c ++ [10]) = n := by
  rw [lineStatus_eq, if_pos hp, sscanf_d_decimal _ n r hn, toInt_of_range n h1 h2]
  simp

/-- C20: for every response that does not overflow, on a connection that opens:
if the last complete line that begins with `"HTTP/1.0"` has a decimal integer
`n` (an `int` value) at offset 9, `call` returns `n` whatever the earlier lines
contained; and if no complete line begins with `"HTTP/1.0"`, `call` returns 0. -/
theorem call_last_status_line (st : State) (stack incoming method uri : List Nat)
    (mime payload response : Option (List Nat)) (response_size : Nat)
    (hfit : fitsBuffer incoming) :
    (∀ (before after : List (List Nat)) (l : List Nat) (n : Int),
      completeLines incoming = before ++ l :: after → HTTP_1_0 <+: l →
      (∀ l' ∈ after, ¬ HTTP_1_0 <+: l') → decimalAt9 l = some n →
      INT_MIN ≤ n → n ≤ INT_MAX →
      (call st ⟨true, incoming⟩ stack method uri mime payload response response_size).ret = n) ∧
    ((∀ l ∈ completeLines incoming, ¬ HTTP_1_0 <+: l) →
      (call st ⟨true, incoming⟩ stack method uri mime payload response response_size).ret = 0) := by
  have hret := ((call_connected st stack incoming method uri mime payload response
    response_size).2 hfit).1
  have hlf := linesFrom_end_lf incoming []
  constructor
  · intro before after l n hsplit hp hafter hn h1 h2
    rw [hret, hsplit, List.foldl_append, List.foldl_cons]
    have hmem : ∀ x ∈ before ++ l :: after, ∃ c, x = c ++ [10] := by
      intro x hx
      apply hlf
      simp only [completeLines] at hsplit
      rw [hsplit]
      exact hx
    obtain ⟨c, rfl⟩ := hmem l (by simp)
    rw [lineStatus_decimal c n _ hp hn h1 h2]
    exact foldl_lineStatus_other after n
      (fun l' hl' => ⟨hmem l' (by simp [hl']), hafter l' hl'⟩)
  · intro hno
    rw [hret]
    exact foldl_lineStatus_other _ 0 (fun l hl => ⟨hlf l hl, hno l hl⟩)

/-- Instance of `call_last_status_line`: the second status line decides, and a
response whose status line is HTTP/1.1 gives 0. -/
theorem call_last_status_line_witness :
    (call init ⟨true, ascii "HTTP/1.0 404 Not Found\r\nHTTP/1.0 200 OK\r\nServer: x\r\nbody"⟩ []
      (ascii "GET") (ascii "/") none none none 0).ret = 200 ∧
    (call init ⟨true, ascii "HTTP/1.1 200 OK\r\n\r\nbody"⟩ []
      (ascii "GET") (ascii "/") none none none 0).ret = 0 :=
  ⟨(call_last_status_line init []
      (ascii "HTTP/1.0 404 Not Found\r\nHTTP/1.0 200 OK\r\nServer: x\r\nbody")
      (ascii "GET") (ascii "/") none none none 0 (by decide)).1
      [ascii "HTTP/1.0 404 Not Found\r\n"] [ascii "Server: x\r\n"] (ascii "HTTP/1.0 200 OK\r\n")
      200 (by decide) (by decide) (by decide) (by decide) (by decide) (by decide),
   (call_last_status_line init [] (ascii "HTTP/1.1 200 OK\r\n\r\nbody")
      (ascii "GET") (ascii "/") none none none 0 (by decide)).2 (by decide)⟩

end FluidDB
